import Mathlib

/-!
# Xiaomi repeater firmware dumper: the console-protocol reader

A shallow embedding of `main.go`: the serial read cycle `readNBytes` (command
formatting, receive loop, echo location, payload window, byte-order reversal,
hex decoding) and the dump loop of `main`.

Conventions of the embedding.

* A Go `string` / `[]byte` is a `List Nat`, one entry per byte.
* A Go `int` is an `Int`.  The arithmetic on `byteCount` is the mathematical
  one: it agrees with 64-bit arithmetic for every `byteCount` whose read
  buffer can be allocated.
* The serial port is a script of the results of the successive `Read` calls;
  a `Read` past the end of the script blocks for ever.
* `log.Fatalln` ends the process, a failed slice expression panics; both are
  values of `Outcome`.
* The functions of the Go standard library that `readNBytes` calls
  (`strings.Index`, `Contains`, `ReplaceAll`, `TrimSpace`, `Fields`,
  `hex.DecodeString`, `fmt.Sprintf`, `strconv.Itoa`) and the iteration of
  `tqdm.R` are written out after their documented behaviour, white space
  being the Unicode one over UTF-8 as in Go.
-/

set_option autoImplicit false

namespace Dumper

/-! ## Strings -/

/-- The bytes of an ASCII literal. -/
def str (s : String) : List Nat := s.toList.map Char.toNat

/-- The response terminator tested by the receive loop, three CRLF pairs. -/
def terminator : List Nat := [13, 10, 13, 10, 13, 10]

/-- Scan of `strings.Index`: the first position, counted from `i`, at which
`sub` starts, or `-1`. -/
def indexFrom (sub : List Nat) : List Nat → Nat → Int
  | [], i => if sub.isEmpty then (i : Int) else -1
  | c :: cs, i => if sub.isPrefixOf (c :: cs) then (i : Int) else indexFrom sub cs (i + 1)

/-- Go `strings.Index(s, substr)`: index of the first instance of `substr`
in `s`, or `-1` if `substr` is not present. -/
def Index (s sub : List Nat) : Int := indexFrom sub s 0

/-- Go `strings.Contains(s, substr)`, which is `Index(s, substr) >= 0`. -/
def Contains (s sub : List Nat) : Bool := decide (0 ≤ Index s sub)

/-- Go slice expression `s[lo:hi]` on a string: the bytes from `lo` up to
`hi`, or `none` for the run-time panic when `0 ≤ lo ≤ hi ≤ len(s)` fails. -/
def goSlice (s : List Nat) (lo hi : Int) : Option (List Nat) :=
  if 0 ≤ lo ∧ lo ≤ hi ∧ hi ≤ (s.length : Int) then
    some ((s.drop lo.toNat).take (hi - lo).toNat)
  else none

/-- Go `strings.ReplaceAll(s, old, new)` for a one-byte `old`: every
occurrence of the byte is replaced by `new`. -/
def ReplaceAll (s : List Nat) (old : Nat) (new : List Nat) : List Nat :=
  s.flatMap (fun c => if c = old then new else [c])

/-- Go `utf8.DecodeRuneInString`: the first rune of `s` and its width in
bytes; an invalid encoding gives `U+FFFD` with width 1, the empty string
width 0. -/
def decodeRune : List Nat → Nat × Nat
  | [] => (0xFFFD, 0)
  | s0 :: rest =>
    if s0 < 0x80 then (s0, 1)
    else if s0 < 0xC2 then (0xFFFD, 1)
    else if s0 < 0xE0 then
      match rest with
      | s1 :: _ =>
        if 0x80 ≤ s1 ∧ s1 ≤ 0xBF then ((s0 % 32) * 64 + s1 % 64, 2) else (0xFFFD, 1)
      | [] => (0xFFFD, 1)
    else if s0 < 0xF0 then
      match rest with
      | s1 :: s2 :: _ =>
        if (if s0 = 0xE0 then 0xA0 else 0x80) ≤ s1 ∧ s1 ≤ (if s0 = 0xED then 0x9F else 0xBF)
            ∧ 0x80 ≤ s2 ∧ s2 ≤ 0xBF then
          ((s0 % 16) * 4096 + (s1 % 64) * 64 + s2 % 64, 3)
        else (0xFFFD, 1)
      | _ => (0xFFFD, 1)
    else if s0 < 0xF5 then
      match rest with
      | s1 :: s2 :: s3 :: _ =>
        if (if s0 = 0xF0 then 0x90 else 0x80) ≤ s1 ∧ s1 ≤ (if s0 = 0xF4 then 0x8F else 0xBF)
            ∧ 0x80 ≤ s2 ∧ s2 ≤ 0xBF ∧ 0x80 ≤ s3 ∧ s3 ≤ 0xBF then
          ((s0 % 8) * 262144 + (s1 % 64) * 4096 + (s2 % 64) * 64 + s3 % 64, 4)
        else (0xFFFD, 1)
      | _ => (0xFFFD, 1)
    else (0xFFFD, 1)

/-- Go `unicode.IsSpace`: the runes with the Unicode White_Space property. -/
def isSpace (r : Nat) : Bool :=
  (9 ≤ r && r ≤ 13) || r == 32 || r == 0x85 || r == 0xA0 || r == 0x1680
    || (0x2000 ≤ r && r ≤ 0x200A) || r == 0x2028 || r == 0x2029 || r == 0x202F
    || r == 0x205F || r == 0x3000

/-- For every byte of the string, whether the rune it belongs to is white
space.  `skip` counts the bytes still owed to the rune decoded last and `sp`
is that rune's verdict. -/
def spaceMask : List Nat → Nat → Bool → List Bool
  | [], _, _ => []
  | c :: cs, 0, _ =>
    let r := decodeRune (c :: cs)
    isSpace r.1 :: spaceMask cs (r.2 - 1) (isSpace r.1)
  | _ :: cs, k + 1, sp => sp :: spaceMask cs k sp

/-- Splitting a string at the bytes flagged as white space; `cur` is the
field being collected. -/
def fieldsAux : List Nat → List Nat → List Bool → List (List Nat)
  | cur, c :: cs, b :: bs =>
    if b then
      if cur.isEmpty then fieldsAux [] cs bs else cur :: fieldsAux [] cs bs
    else fieldsAux (cur ++ [c]) cs bs
  | cur, _, _ => if cur.isEmpty then [] else [cur]

/-- Go `strings.Fields(s)`: `s` split around each run of one or more white
space runes, as defined by `unicode.IsSpace`; no field is empty. -/
def Fields (s : List Nat) : List (List Nat) := fieldsAux [] s (spaceMask s 0 false)

/-- Dropping the leading bytes that are flagged. -/
def dropFlagged : List Nat → List Bool → List Nat
  | c :: cs, b :: bs => if b then dropFlagged cs bs else c :: cs
  | s, _ => s

/-- Go `strings.TrimSpace(s)`: `s` without its leading and trailing white
space, as defined by Unicode. -/
def TrimSpace (s : List Nat) : List Nat :=
  let m := spaceMask s 0 false
  let t := dropFlagged s m
  let mt := m.drop (s.length - t.length)
  (dropFlagged t.reverse mt.reverse).reverse

/-! ## Hexadecimal and decimal text -/

/-- Go `encoding/hex` `reverseHexTable`: the value of a hex digit, `none`
for any other byte. -/
def fromHexChar (c : Nat) : Option Nat :=
  if 48 ≤ c ∧ c ≤ 57 then some (c - 48)
  else if 97 ≤ c ∧ c ≤ 102 then some (c - 97 + 10)
  else if 65 ≤ c ∧ c ≤ 70 then some (c - 65 + 10)
  else none

/-- Go `hex.DecodeString`: two hex digits per byte; `none` stands for the
error (`InvalidByteError` or `ErrLength`). -/
def DecodeString : List Nat → Option (List Nat)
  | [] => some []
  | [_] => none
  | p :: q :: rest =>
    match fromHexChar p, fromHexChar q with
    | some a, some b => (DecodeString rest).map (fun bs => (a * 16 + b) :: bs)
    | _, _ => none

/-- The digits of `n` in base `base`, least significant first, at least one
digit; `fuel` bounds the number of digits. -/
def digitsRev (base : Nat) : Nat → Nat → List Nat
  | 0, _ => []
  | fuel + 1, n => if n < base then [n] else (n % base) :: digitsRev base fuel (n / base)

/-- The character of a digit value, upper case above nine. -/
def digitChar (d : Nat) : Nat := if d < 10 then 48 + d else 55 + d

/-- The text of a natural number in base `base`, most significant digit
first, upper-case letters. -/
def natText (base n : Nat) : List Nat := ((digitsRev base (n + 1) n).reverse).map digitChar

/-- Go `strconv.Itoa`. -/
def Itoa (i : Int) : List Nat :=
  if i < 0 then 45 :: natText 10 i.natAbs else natText 10 i.toNat

/-- Left padding with the character zero up to `width`. -/
def padZeros (width : Nat) (s : List Nat) : List Nat :=
  List.replicate (width - s.length) 48 ++ s

/-- Go `fmt.Sprintf("0x%08X", v)` for an `int`: upper-case hex padded with
zeros to eight columns, the sign of a negative value taking one of them. -/
def Sprintf0x08X (v : Int) : List Nat :=
  str "0x" ++ (if v < 0 then 45 :: padZeros 7 (natText 16 v.natAbs)
    else padZeros 8 (natText 16 v.toNat))

/-! ## The serial port -/

/-- The result of one `serialPort.Read`: the bytes delivered, or an error. -/
inductive ReadEvent where
  | data (bs : List Nat)
  | fail
  deriving DecidableEq

/-- The serial port as `readNBytes` sees it: the results of the `Read` calls
still to come, whether `Write` fails, and the bytes written so far, one
entry per `Write`. -/
structure Port where
  reads : List ReadEvent
  writeErr : Bool
  written : List (List Nat)
  deriving DecidableEq

/-- How a call of `readNBytes` ends: it returns `decodedBytes`; one of the
four `log.Fatalln` calls ends the process (write error, read error, command
not found in the response, hex decoding error); a slice expression or `make`
panics; or a `Read` blocks for ever. -/
inductive Outcome where
  | returned (bs : List Nat)
  | fatalWrite
  | fatalRead
  | fatalDelimiter
  | fatalDecode
  | panicSlice
  | panicMake
  | hang
  deriving DecidableEq

/-- How the receive loop ends: it exits with the accumulated text and the
reads left, a read fails, or a read blocks for ever. -/
inductive RecvResult where
  | exited (currentChunk : List Nat) (rest : List ReadEvent)
  | readError
  | blocked
  deriving DecidableEq

/-- The receive loop of `readNBytes`.  The loop condition looks at `tempBuf`,
the whole read buffer; a read of `n` bytes overwrites its first `n` bytes and
appends them to `currentChunk`. -/
def recvLoop : List ReadEvent → List Nat → List Nat → RecvResult
  | evs, tempBuf, currentChunk =>
    if Contains tempBuf terminator then RecvResult.exited currentChunk evs
    else
      match evs with
      | [] => RecvResult.blocked
      | ReadEvent.fail :: _ => RecvResult.readError
      | ReadEvent.data bs :: rest =>
        let got := bs.take tempBuf.length
        recvLoop rest (got ++ tempBuf.drop got.length) (currentChunk ++ got)

/-! ## Decoding -/

/-- The body of the reversal loop for one field `v`:
`v[6:8] + v[4:6] + v[2:4] + v[0:2]`, or `none` when a slice panics. -/
def reverseGroup (v : List Nat) : Option (List Nat) := do
  let a ← goSlice v 6 8
  let b ← goSlice v 4 6
  let c ← goSlice v 2 4
  let d ← goSlice v 0 2
  pure (a ++ b ++ c ++ d)

/-- The value of `v[6:8] + v[4:6] + v[2:4] + v[0:2]` when no slice panics. -/
def swapGroup (v : List Nat) : List Nat :=
  (v.drop 6).take 2 ++ (v.drop 4).take 2 ++ (v.drop 2).take 2 ++ (v.drop 0).take 2

/-- The reversal loop over `fourByteSlice`, `encodedString` being the
accumulator. -/
def reverseLoop : List (List Nat) → List Nat → Option (List Nat)
  | [], encodedString => some encodedString
  | v :: vs, encodedString =>
    match reverseGroup v with
    | none => none
    | some g => reverseLoop vs (encodedString ++ g)

/-- The payload length of `readNBytes`,
`(byteCount * 2) + (byteCount / 4) + (byteCount / 8)`. -/
def chunkLength (byteCount : Int) : Int :=
  byteCount * 2 + Int.tdiv byteCount 4 + Int.tdiv byteCount 8

/-- Lines 71 to 89 of `readNBytes`: tidy the window, reverse the groups,
decode. -/
def decodeWindow (finalChunk : List Nat) : Outcome :=
  let finalChunk := ReplaceAll finalChunk 13 []
  let finalChunk := ReplaceAll finalChunk 10 []
  let finalChunk := TrimSpace finalChunk
  let fourByteSlice := Fields finalChunk
  match reverseLoop fourByteSlice [] with
  | none => Outcome.panicSlice
  | some encodedString =>
    match DecodeString encodedString with
    | none => Outcome.fatalDecode
    | some decodedBytes => Outcome.returned decodedBytes

/-- Lines 59 to 89 of `readNBytes`: everything after the receive loop, as a
function of the accumulated text. -/
def decodeResponse (byteCount : Int) (writeString currentChunk : List Nat) : Outcome :=
  let cmdIndex := Index currentChunk writeString
  if cmdIndex = -1 then Outcome.fatalDelimiter
  else
    let cmdIndex := cmdIndex + (writeString.length : Int) + 2
    match goSlice currentChunk cmdIndex (cmdIndex + chunkLength byteCount) with
    | none => Outcome.panicSlice
    | some finalChunk => decodeWindow finalChunk

/-- The read command of `readNBytes`. -/
def writeString (byteCount offset : Int) : List Nat :=
  str "spi rd " ++ Sprintf0x08X offset ++ str " " ++ Itoa byteCount

/-- The function `readNBytes`: the outcome of the call and the port after it. -/
def readNBytes (serialPort : Port) (byteCount offset : Int) : Outcome × Port :=
  let ws := writeString byteCount offset
  if serialPort.writeErr then (Outcome.fatalWrite, serialPort)
  else
    let p := { serialPort with written := serialPort.written ++ [ws ++ str ";"] }
    if byteCount * 2 + 63 < 0 then (Outcome.panicMake, p)
    else
      match recvLoop p.reads (List.replicate (byteCount * 2 + 63).toNat 0) [] with
      | RecvResult.blocked => (Outcome.hang, { p with reads := [] })
      | RecvResult.readError => (Outcome.fatalRead, p)
      | RecvResult.exited currentChunk rest =>
        (decodeResponse byteCount ws currentChunk, { p with reads := rest })

/-- What `decodeWindow` hands to `strings.Fields`: the window without CR and
LF, trimmed. -/
def normalize (finalChunk : List Nat) : List Nat :=
  TrimSpace (ReplaceAll (ReplaceAll finalChunk 13 []) 10 [])

/-! ## The dump loop of `main` -/

/-- The chunk sizes that pass the `switch` of `main`. -/
def allowedChunkSizes : List Int := [64, 128, 256, 512, 1024]

/-- The state of the dump loop: the counter `index`, the port, the bytes
written to `dumpFile`, and, for the statements below, the `(byteCount,
offset)` arguments of the calls made, the chunks returned, and the outcome
that ended the process, if any. -/
structure DumpState where
  index : Int
  serialPort : Port
  dumpFile : List Nat
  calls : List (Int × Int)
  chunks : List (List Nat)
  stopped : Option Outcome
  deriving DecidableEq

/-- The closure passed to `tqdm.R`: one read cycle appended to the file.
The write to the file is taken to succeed. -/
def dumpBody (chunkSize iterSize : Int) (st : DumpState) : DumpState :=
  if st.index = iterSize then st
  else
    let r := readNBytes st.serialPort chunkSize (chunkSize * st.index)
    match r.1 with
    | Outcome.returned currentChunk =>
      { index := st.index + 1
        serialPort := r.2
        dumpFile := st.dumpFile ++ currentChunk
        calls := st.calls ++ [(chunkSize, chunkSize * st.index)]
        chunks := st.chunks ++ [currentChunk]
        stopped := none }
    | o =>
      { st with
        serialPort := r.2
        calls := st.calls ++ [(chunkSize, chunkSize * st.index)]
        stopped := some o }

/-- The iteration of `tqdm.R(lower, upper, f)`: `f` is called once for every
value of the range, here `count` of them; the closure of `main` never asks
to break, and a fatal outcome ends the process. -/
def tqdmR : Nat → (DumpState → DumpState) → DumpState → DumpState
  | 0, _, st => st
  | count + 1, f, st => if st.stopped.isSome then st else tqdmR count f (f st)

/-- Lines 158 to 180 of `main` for a total size `totalSize`. -/
def dumpLoopOf (totalSize chunkSize : Int) (serialPort : Port) : DumpState :=
  let iterSize := Int.tdiv totalSize chunkSize
  tqdmR (iterSize - 0).toNat (dumpBody chunkSize iterSize)
    { index := 0, serialPort := serialPort, dumpFile := [], calls := [], chunks := [],
      stopped := none }

/-- Lines 158 to 180 of `main`: the dump loop over the 2097152 bytes of the
chip. -/
def dumpLoop (chunkSize : Int) (serialPort : Port) : DumpState :=
  dumpLoopOf 2097152 chunkSize serialPort

/-! ## Reading numbers back from their text -/

/-- The value of a digit character: `0`..`9`, then `A`.. for ten and up. -/
def charDigit (c : Nat) : Nat := if c ≤ 57 then c - 48 else c - 55

/-- The number written by a digit string in base `base`, most significant
digit first. -/
def textValue (base : Nat) (cs : List Nat) : Nat :=
  cs.foldl (fun acc c => acc * base + charDigit c) 0

/-- An upper-case hexadecimal digit, `0`..`9` or `A`..`F`. -/
def isUpperHexChar (c : Nat) : Prop := (48 ≤ c ∧ c ≤ 57) ∨ (65 ≤ c ∧ c ≤ 70)

/-- A decimal digit. -/
def isDecChar (c : Nat) : Prop := 48 ≤ c ∧ c ≤ 57

/-- The value of little-endian digits. -/
def valueRev (base : Nat) : List Nat → Nat
  | [] => 0
  | d :: ds => d + base * valueRev base ds

/-! ## The byte order of a group, as the protocol describes it -/

/-- A hexadecimal digit of either case. -/
def isHexChar (c : Nat) : Prop :=
  (48 ≤ c ∧ c ≤ 57) ∨ (65 ≤ c ∧ c ≤ 70) ∨ (97 ≤ c ∧ c ≤ 102)

instance : DecidablePred isHexChar := fun c => by unfold isHexChar; infer_instance

instance : DecidablePred isUpperHexChar := fun c => by unfold isUpperHexChar; infer_instance

instance : DecidablePred isDecChar := fun c => by unfold isDecChar; infer_instance

/-- The value of a hexadecimal digit of either case. -/
def hexDigitValue (c : Nat) : Nat :=
  if c ≤ 57 then c - 48 else if c ≤ 70 then c - 55 else c - 87

/-- The byte written by the two hex digits `a b`. -/
def hexPair (a b : Nat) : Nat := 16 * hexDigitValue a + hexDigitValue b

/-- The four bytes of a group `h0 h1 h2 h3 h4 h5 h6 h7`: those written
`h6h7`, `h4h5`, `h2h3`, `h0h1`, in this order. -/
def groupBytes : List Nat → List Nat
  | [h0, h1, h2, h3, h4, h5, h6, h7] => [hexPair h6 h7, hexPair h4 h5, hexPair h2 h3, hexPair h0 h1]
  | _ => []

/-! ## The console's output format, as the protocol describes it -/

/-- The character of a hex digit value, in upper or lower case. -/
def hexChar (upper : Bool) (d : Nat) : Nat :=
  if d < 10 then 48 + d else if upper then 55 + d else 87 + d

/-- The two hex digits of a byte. -/
def encodeByte (upper : Bool) (b : Nat) : List Nat :=
  [hexChar upper (b / 16), hexChar upper (b % 16)]

/-- The console's text for a byte sequence: every group of four bytes
`b0 b1 b2 b3` is written as the eight hex digits of `b3 b2 b1 b0`, followed
by its separator. -/
def consoleEncode (upper : Bool) : List Nat → List (List Nat) → List Nat
  | b0 :: b1 :: b2 :: b3 :: rest, sep :: seps =>
    encodeByte upper b3 ++ encodeByte upper b2 ++ encodeByte upper b1 ++ encodeByte upper b0
      ++ sep ++ consoleEncode upper rest seps
  | _, _ => []

/-- A separator between groups: ASCII white space only, with at least one
character that is neither CR nor LF. -/
def isSeparator (s : List Nat) : Prop :=
  (∀ c ∈ s, c = 32 ∨ c = 9 ∨ c = 10 ∨ c = 11 ∨ c = 12 ∨ c = 13) ∧
    (∃ c ∈ s, c = 32 ∨ c = 9 ∨ c = 11 ∨ c = 12)

instance : DecidablePred isSeparator := fun s => by unfold isSeparator; infer_instance

/-- The console's separators for `n` groups: one space after every group and
one more after every second group. -/
def consoleSeps (n : Nat) : List (List Nat) :=
  (List.range n).map (fun i => if i % 2 = 0 then [32] else [32, 32])

/-- A sample chunk, the bytes 0 to 63. -/
def sampleBytes : List Nat := List.range 64

/-- The console's payload text for the sample chunk. -/
def samplePayload : List Nat := consoleEncode true sampleBytes (consoleSeps 16)

/-- A complete response to `spi rd 0x00000000 64` carrying the sample chunk. -/
def sampleResponse : List Nat :=
  writeString 64 0 ++ str "\r\n" ++ samplePayload ++ terminator

/-- A response to `spi rd 0x00000000 64` whose payload window holds a single
group followed by blanks. -/
def shortResponse : List Nat :=
  writeString 64 0 ++ str "\r\n" ++ str "04030201" ++ List.replicate 144 32 ++ terminator

/-- A response to `spi rd 0x00000000 64` whose payload window holds a group
with a character that is no hex digit. -/
def garbledResponse : List Nat :=
  writeString 64 0 ++ str "\r\n" ++ str "0403020G" ++ List.replicate 144 32 ++ terminator

/-- A port that delivers `text` in a single read. -/
def portOf (text : List Nat) : Port :=
  { reads := [ReadEvent.data text], writeErr := false, written := [] }

/-- A port that delivers `text` one byte per read. -/
def bytewisePort (text : List Nat) : Port :=
  { reads := text.map (fun b => ReadEvent.data [b]), writeErr := false, written := [] }

/-- The groups of the console's text for a byte sequence, without their
separators. -/
def groupsOf (upper : Bool) : List Nat → List (List Nat)
  | b0 :: b1 :: b2 :: b3 :: rest =>
    (encodeByte upper b3 ++ encodeByte upper b2 ++ encodeByte upper b1 ++ encodeByte upper b0)
      :: groupsOf upper rest
  | _ => []

/-- The text without its CR and LF characters. -/
def strip (s : List Nat) : List Nat := ReplaceAll (ReplaceAll s 13 []) 10 []

/-- The console's response to the read of the chunk at `offset`, carrying
the sample chunk. -/
def responseAt (offset : Int) : List Nat :=
  writeString 64 offset ++ str "\r\n" ++ samplePayload ++ terminator

/-- A port that answers the reads of `n` consecutive chunks of 64 bytes from
chunk number `k` on, each response delivered by a single read. -/
def servingPort (k n : Nat) : Port :=
  { reads := (List.range' k n).map (fun (i : Nat) => ReadEvent.data (responseAt (64 * (i : Int))))
    writeErr := false
    written := [] }

/-- The reads of an early exit: the second read leaves the tail of the first
in the buffer. -/
def staleReads : List ReadEvent :=
  [ReadEvent.data (str "ab\r\n\r\nZ"), ReadEvent.data (str "\r\n")]

/-! ## Statements about the dump loop -/

/-- The arguments of the first `n` read cycles: chunk `i` at offset
`chunkSize * i`. -/
def expectedCalls (chunkSize : Int) (n : Nat) : List (Int × Int) :=
  (List.range n).map (fun (i : Nat) => (chunkSize, chunkSize * (i : Int)))

/-- The invariant of the dump loop. -/
structure DumpInv (chunkSize : Int) (st : DumpState) : Prop where
  calls_eq : st.calls = expectedCalls chunkSize st.calls.length
  file_eq : st.dumpFile = st.chunks.flatten
  index_eq : st.index = (st.chunks.length : Int)
  running : st.stopped = none → st.calls.length = st.chunks.length
  halted : st.stopped ≠ none → st.calls.length = st.chunks.length + 1

/-- The bytes of the first `n` commands the dump loop writes to the port:
the read command of chunk `i` followed by `;`. -/
def sentCommands (chunkSize : Int) (n : Nat) : List (List Nat) :=
  (List.range n).map (fun (i : Nat) => writeString chunkSize (chunkSize * (i : Int)) ++ str ";")

/-- The chain of read cycles behind a state of the dump loop started on
`port`: `ports i` is the port before read `i`, every chunk recorded is what
`readNBytes` returned on the port of its turn, and while the loop runs the
port of the state is the port after the last read, holding the commands
written so far. -/
structure DumpChain (chunkSize : Int) (port : Port) (st : DumpState) (ports : Nat → Port) :
    Prop where
  start : ports 0 = port
  current : st.stopped = none → ports st.chunks.length = st.serialPort
  sent : st.stopped = none →
    st.serialPort.written = port.written ++ sentCommands chunkSize st.chunks.length
  reads : ∀ (i : Nat) (ch : List Nat), st.chunks[i]? = some ch →
    readNBytes (ports i) chunkSize (chunkSize * (i : Int)) = (Outcome.returned ch, ports (i + 1))

/-- A port that delivers `text` in two reads, the first of `n` bytes. -/
def splitPort (text : List Nat) (n : Nat) : Port :=
  { reads := [ReadEvent.data (text.take n), ReadEvent.data (text.drop n)]
    writeErr := false
    written := [] }


/-! ## Index and Contains -/

theorem isPrefixOf_iff (sub s : List Nat) : sub.isPrefixOf s = true ↔ sub <+: s :=
  List.isPrefixOf_iff_prefix

theorem indexFrom_cases (sub : List Nat) : ∀ (s : List Nat) (i : Nat),
    (indexFrom sub s i = -1 ∧ ∀ j, j ≤ s.length → ¬ sub <+: s.drop j) ∨
    (∃ k, indexFrom sub s i = ((i + k : Nat) : Int) ∧ k ≤ s.length ∧ sub <+: s.drop k ∧
      ∀ j, j < k → ¬ sub <+: s.drop j)
  | [], i => by
    cases sub with
    | nil => right; exact ⟨0, by simp [indexFrom], by simp, by simp, by simp⟩
    | cons a t => left; refine ⟨by simp [indexFrom], ?_⟩; intro j _; simp
  | c :: cs, i => by
    by_cases h : sub.isPrefixOf (c :: cs) = true
    · right
      exact ⟨0, by simp [indexFrom, h], by simp, by simpa using (isPrefixOf_iff _ _).1 h, by simp⟩
    · have hnp : ¬ sub <+: (c :: cs) := fun hp => h ((isPrefixOf_iff _ _).2 hp)
      have hstep : indexFrom sub (c :: cs) i = indexFrom sub cs (i + 1) := by
        simp [indexFrom, h]
      rcases indexFrom_cases sub cs (i + 1) with ⟨h1, h2⟩ | ⟨k, h1, h2, h3, h4⟩
      · left
        refine ⟨by rw [hstep, h1], ?_⟩
        intro j hj
        cases j with
        | zero => simpa using hnp
        | succ j => simpa using h2 j (by simpa using hj)
      · right
        refine ⟨k + 1, ?_, by simpa using h2, by simpa using h3, ?_⟩
        · rw [hstep, h1]; push_cast; ring
        · intro j hj
          cases j with
          | zero => simpa using hnp
          | succ j => simpa using h4 j (by omega)

theorem substring_iff_drop (sub s : List Nat) :
    sub <:+: s ↔ ∃ j, j ≤ s.length ∧ sub <+: s.drop j := by
  constructor
  · rintro ⟨a, b, h⟩
    refine ⟨a.length, ?_, ?_⟩
    · rw [← h]; simp
    · rw [← h]; simp
  · rintro ⟨j, _, t, ht⟩
    refine ⟨s.take j, t, ?_⟩
    rw [List.append_assoc, ht, List.take_append_drop]

theorem Index_eq_neg_one_iff (s sub : List Nat) : Index s sub = -1 ↔ ¬ sub <:+: s := by
  unfold Index
  rcases indexFrom_cases sub s 0 with ⟨h1, h2⟩ | ⟨k, h1, h2, h3, _⟩
  · simp only [h1, true_iff]
    rw [substring_iff_drop]
    rintro ⟨j, hj, hp⟩
    exact h2 j hj hp
  · have hin : sub <:+: s := (substring_iff_drop sub s).2 ⟨k, h2, h3⟩
    simp only [hin, not_true_eq_false, iff_false, h1]
    omega

/-- `Index` finds the first occurrence: if `sub` starts at `P` and at no
earlier position, `Index` is `P`. -/
theorem Index_eq_of_first (s sub : List Nat) (P : Nat) (hP : P ≤ s.length)
    (hocc : sub <+: s.drop P) (hfirst : ∀ j, j < P → ¬ sub <+: s.drop j) :
    Index s sub = (P : Int) := by
  unfold Index
  rcases indexFrom_cases sub s 0 with ⟨_, h2⟩ | ⟨k, h1, _, h3, h4⟩
  · exact absurd hocc (h2 P hP)
  · rw [h1]
    have : k = P := by
      rcases Nat.lt_trichotomy k P with h | h | h
      · exact absurd h3 (hfirst k h)
      · exact h
      · exact absurd hocc (h4 P h)
    simp [this]

theorem Index_nonneg_or (s sub : List Nat) : Index s sub = -1 ∨ 0 ≤ Index s sub := by
  unfold Index
  rcases indexFrom_cases sub s 0 with ⟨h1, _⟩ | ⟨k, h1, _⟩
  · left; exact h1
  · right; rw [h1]; omega

theorem Contains_iff (s sub : List Nat) : Contains s sub = true ↔ sub <:+: s := by
  unfold Contains
  rw [decide_eq_true_iff]
  constructor
  · intro h
    by_contra hn
    have := (Index_eq_neg_one_iff s sub).2 hn
    omega
  · intro h
    rcases Index_nonneg_or s sub with h1 | h1
    · exact absurd h ((Index_eq_neg_one_iff s sub).1 h1)
    · exact h1


/-! ## Slices, the reversal loop and hex decoding -/

theorem goSlice_eq_some (s : List Nat) (lo hi : Nat) (h1 : lo ≤ hi) (h2 : hi ≤ s.length) :
    goSlice s (lo : Int) (hi : Int) = some ((s.drop lo).take (hi - lo)) := by
  unfold goSlice
  have hc : (0 : Int) ≤ (lo : Int) ∧ (lo : Int) ≤ (hi : Int) ∧ (hi : Int) ≤ (s.length : Int) := by
    omega
  rw [if_pos hc]
  have e1 : ((lo : Int)).toNat = lo := by omega
  have e2 : ((hi : Int) - (lo : Int)).toNat = hi - lo := by omega
  rw [e1, e2]

theorem goSlice_isSome_iff (s : List Nat) (lo hi : Int) :
    (goSlice s lo hi).isSome = true ↔ 0 ≤ lo ∧ lo ≤ hi ∧ hi ≤ (s.length : Int) := by
  unfold goSlice
  split <;> simp_all

theorem goSlice_length (s w : List Nat) (lo hi : Int) (h : goSlice s lo hi = some w) :
    (w.length : Int) = hi - lo := by
  unfold goSlice at h
  split at h
  · rename_i hc
    injection h with h
    rw [← h, List.length_take, List.length_drop]
    omega
  · cases h

theorem reverseGroup_of_le (v : List Nat) (h : 8 ≤ v.length) :
    reverseGroup v = some (swapGroup v) := by
  have a := goSlice_eq_some v 6 8 (by omega) h
  have b := goSlice_eq_some v 4 6 (by omega) (by omega)
  have c := goSlice_eq_some v 2 4 (by omega) (by omega)
  have d := goSlice_eq_some v 0 2 (by omega) (by omega)
  simp only [Nat.cast_ofNat, Nat.cast_zero] at a b c d
  simp [reverseGroup, a, b, c, d, swapGroup]

theorem reverseGroup_of_lt (v : List Nat) (h : v.length < 8) : reverseGroup v = none := by
  have a : goSlice v 6 8 = none := by
    unfold goSlice
    rw [if_neg]
    omega
  simp [reverseGroup, a]

theorem reverseGroup_length (v g : List Nat) (h : reverseGroup v = some g) :
    g.length = 8 ∧ 8 ≤ v.length := by
  by_cases hv : 8 ≤ v.length
  · rw [reverseGroup_of_le v hv] at h
    injection h with h
    refine ⟨?_, hv⟩
    rw [← h]
    simp only [swapGroup, List.length_append, List.length_take, List.length_drop]
    omega
  · rw [reverseGroup_of_lt v (by omega)] at h
    cases h

theorem reverseLoop_some_length : ∀ (toks : List (List Nat)) (acc enc : List Nat),
    reverseLoop toks acc = some enc →
      enc.length = acc.length + 8 * toks.length ∧ ∀ v ∈ toks, 8 ≤ v.length
  | [], acc, enc, h => by
    simp only [reverseLoop, Option.some.injEq] at h
    simp [h]
  | v :: vs, acc, enc, h => by
    simp only [reverseLoop] at h
    cases hg : reverseGroup v with
    | none => rw [hg] at h; cases h
    | some g =>
      rw [hg] at h
      have hl := reverseGroup_length v g hg
      have ih := reverseLoop_some_length vs (acc ++ g) enc h
      refine ⟨?_, ?_⟩
      · rw [ih.1, List.length_append, hl.1, List.length_cons]; ring
      · intro w hw
        rcases List.mem_cons.1 hw with rfl | hw
        · exact hl.2
        · exact ih.2 w hw

theorem reverseLoop_isSome : ∀ (toks : List (List Nat)) (acc : List Nat),
    (∀ v ∈ toks, 8 ≤ v.length) → ∃ enc, reverseLoop toks acc = some enc
  | [], acc, _ => ⟨acc, rfl⟩
  | v :: vs, acc, h => by
    have hv : 8 ≤ v.length := h v (List.mem_cons_self _ _)
    simp only [reverseLoop, reverseGroup_of_le v hv]
    exact reverseLoop_isSome vs _ (fun w hw => h w (List.mem_cons_of_mem _ hw))

theorem DecodeString_length : ∀ (n : Nat) (s bs : List Nat), s.length ≤ n →
    DecodeString s = some bs → s.length = 2 * bs.length
  | _, [], bs, _, h => by
    simp only [DecodeString, Option.some.injEq] at h
    simp [← h]
  | _, [_], bs, _, h => by simp [DecodeString] at h
  | 0, _ :: _ :: _, _, hn, _ => by simp at hn
  | n + 1, p :: q :: rest, bs, hn, h => by
    simp only [DecodeString] at h
    cases hp : fromHexChar p with
    | none => simp [hp] at h
    | some a =>
      cases hq : fromHexChar q with
      | none => simp [hp, hq] at h
      | some b =>
        simp only [hp, hq, Option.map_eq_some'] at h
        obtain ⟨bs1, h1, h2⟩ := h
        have ih := DecodeString_length n rest bs1 (by simp at hn; omega) h1
        rw [← h2]
        simp only [List.length_cons]
        omega

theorem decodeWindow_returned (w bs : List Nat) (h : decodeWindow w = Outcome.returned bs) :
    bs.length = 4 * (Fields (normalize w)).length := by
  unfold decodeWindow at h
  simp only at h
  change (match reverseLoop (Fields (normalize w)) [] with
    | none => Outcome.panicSlice
    | some encodedString =>
      match DecodeString encodedString with
      | none => Outcome.fatalDecode
      | some decodedBytes => Outcome.returned decodedBytes) = Outcome.returned bs at h
  cases hr : reverseLoop (Fields (normalize w)) [] with
  | none => simp only [hr] at h; cases h
  | some enc =>
    simp only [hr] at h
    cases hd : DecodeString enc with
    | none => simp only [hd] at h; cases h
    | some d =>
      simp only [hd] at h
      injection h with h
      subst h
      have h1 := (reverseLoop_some_length _ _ _ hr).1
      have h2 := DecodeString_length enc.length enc d le_rfl hd
      simp at h1
      omega

theorem decodeWindow_ne_fatalDelimiter (w : List Nat) :
    decodeWindow w ≠ Outcome.fatalDelimiter := by
  unfold decodeWindow
  simp only
  split
  · simp
  · split <;> simp

theorem decodeResponse_fatalDelimiter_iff (byteCount : Int) (ws chunk : List Nat) :
    decodeResponse byteCount ws chunk = Outcome.fatalDelimiter ↔ ¬ ws <:+: chunk := by
  rw [← Index_eq_neg_one_iff]
  unfold decodeResponse
  simp only
  constructor
  · intro h
    by_contra hn
    rw [if_neg hn] at h
    split at h
    · cases h
    · exact decodeWindow_ne_fatalDelimiter _ h
  · intro h
    rw [if_pos h]


/-! ## The dump loop -/

theorem expectedCalls_succ (c : Int) (n : Nat) :
    expectedCalls c (n + 1) = expectedCalls c n ++ [(c, c * (n : Int))] := by
  simp [expectedCalls, List.range_succ]

theorem dumpBody_inv (c iterSize : Int) (st : DumpState) (hrun : st.stopped = none)
    (h : DumpInv c st) : DumpInv c (dumpBody c iterSize st) := by
  unfold dumpBody
  by_cases hi : st.index = iterSize
  · rw [if_pos hi]; exact h
  · rw [if_neg hi]
    have hlen := h.running hrun
    have hidx := h.index_eq
    simp only
    split
    · rename_i bs hb
      refine ⟨?_, ?_, ?_, ?_, ?_⟩
      · simp only [List.length_append, List.length_singleton]
        rw [expectedCalls_succ, ← h.calls_eq, hidx, hlen]
      · simp [h.file_eq]
      · simp [hidx]
      · intro _; simp [hlen]
      · intro hn; simp at hn
    · refine ⟨?_, ?_, ?_, ?_, ?_⟩
      · simp only [List.length_append, List.length_singleton]
        rw [expectedCalls_succ, ← h.calls_eq, hidx, hlen]
      · exact h.file_eq
      · exact h.index_eq
      · intro hn; simp at hn
      · intro _; simp [hlen]

theorem tqdmR_inv (c iterSize : Int) : ∀ (n : Nat) (st : DumpState),
    DumpInv c st → DumpInv c (tqdmR n (dumpBody c iterSize) st)
  | 0, st, h => h
  | n + 1, st, h => by
    simp only [tqdmR]
    split
    · exact h
    · rename_i hs
      have hrun : st.stopped = none := by
        cases hst : st.stopped with
        | none => rfl
        | some o => simp [hst] at hs
      exact tqdmR_inv c iterSize n _ (dumpBody_inv c iterSize st hrun h)

/-- While the loop runs the number of chunks read grows by one per call of
the closure, up to the bound. -/
theorem tqdmR_count (c iterSize : Int) : ∀ (n : Nat) (st : DumpState),
    DumpInv c st → st.stopped = none → (st.chunks.length : Int) + n = iterSize →
    (tqdmR n (dumpBody c iterSize) st).stopped = none →
      ((tqdmR n (dumpBody c iterSize) st).chunks.length : Int) = iterSize
  | 0, st, _, _, hn, _ => by simpa [tqdmR] using hn
  | n + 1, st, h, hrun, hn, hfin => by
    simp only [tqdmR, hrun, Option.isSome_none, Bool.false_eq_true, ↓reduceIte] at hfin ⊢
    have hne : st.index ≠ iterSize := by rw [h.index_eq]; push_cast at hn; omega
    have hinv := dumpBody_inv c iterSize st hrun h
    by_cases hs : (dumpBody c iterSize st).stopped = none
    · have hlen : (dumpBody c iterSize st).chunks.length = st.chunks.length + 1 := by
        unfold dumpBody at hs ⊢
        rw [if_neg hne] at hs ⊢
        simp only at hs ⊢
        split
        · simp
        · rename_i hno
          split at hs
          · rename_i bs hb; exact absurd hb (hno bs)
          · simp at hs
      refine tqdmR_count c iterSize n _ hinv hs ?_ hfin
      rw [hlen]; push_cast at hn ⊢; omega
    · exfalso
      cases n with
      | zero => exact hs (by simpa [tqdmR] using hfin)
      | succ m =>
        have : (dumpBody c iterSize st).stopped.isSome = true := by
          cases hst : (dumpBody c iterSize st).stopped with
          | none => exact absurd hst hs
          | some o => rfl
        simp only [tqdmR, this, ↓reduceIte] at hfin
        exact hs hfin

/-! ## Number formatting -/

theorem digitsRev_spec (base : Nat) (hb : 2 ≤ base) : ∀ (fuel n : Nat), n < fuel →
    (∀ d ∈ digitsRev base fuel n, d < base) ∧ valueRev base (digitsRev base fuel n) = n ∧
    digitsRev base fuel n ≠ [] ∧
    (0 < n → ∀ h : digitsRev base fuel n ≠ [], (digitsRev base fuel n).getLast h ≠ 0)
  | 0, n, h => by omega
  | fuel + 1, n, h => by
    by_cases hn : n < base
    · simp only [digitsRev, if_pos hn]
      refine ⟨by simpa using hn, by simp [valueRev], by simp, ?_⟩
      intro h0 _
      simp only [List.getLast_singleton]
      omega
    · simp only [digitsRev, if_neg hn]
      have hdiv : n / base < fuel := by
        have : n / base < n := Nat.div_lt_self (by omega) (by omega)
        omega
      obtain ⟨h1, h2, h3, h4⟩ := digitsRev_spec base hb fuel (n / base) hdiv
      refine ⟨?_, ?_, by simp, ?_⟩
      · intro d hd
        rcases List.mem_cons.1 hd with rfl | hd
        · exact Nat.mod_lt _ (by omega)
        · exact h1 d hd
      · simp only [valueRev, h2]
        exact Nat.mod_add_div n base
      · intro _ _
        rw [List.getLast_cons h3]
        apply h4
        exact Nat.div_pos (by omega) (by omega)

theorem digitsRev_length (base : Nat) (hb : 2 ≤ base) : ∀ (k fuel n : Nat), n < fuel →
    n < base ^ (k + 1) → (digitsRev base fuel n).length ≤ k + 1
  | _, 0, n, h, _ => by omega
  | k, fuel + 1, n, h, hk => by
    by_cases hn : n < base
    · simp [digitsRev, if_pos hn]
    · simp only [digitsRev, if_neg hn, List.length_cons]
      have hdiv : n / base < fuel := by
        have : n / base < n := Nat.div_lt_self (by omega) (by omega)
        omega
      cases k with
      | zero => simp at hk; omega
      | succ k =>
        have : n / base < base ^ (k + 1) := by
          rw [Nat.div_lt_iff_lt_mul (by omega)]
          calc n < base ^ (k + 1 + 1) := hk
            _ = base ^ (k + 1) * base := by ring
        have := digitsRev_length base hb k fuel (n / base) hdiv this
        omega

theorem charDigit_digitChar (d : Nat) (h : d < 16) : charDigit (digitChar d) = d := by
  unfold charDigit digitChar
  split <;> split <;> omega

theorem textValue_append_singleton (base : Nat) (cs : List Nat) (c : Nat) :
    textValue base (cs ++ [c]) = textValue base cs * base + charDigit c := by
  simp [textValue, List.foldl_append]

theorem textValue_reverse_map (base : Nat) (hb : base ≤ 16) : ∀ (ds : List Nat),
    (∀ d ∈ ds, d < base) → textValue base (ds.reverse.map digitChar) = valueRev base ds
  | [], _ => by simp [textValue, valueRev]
  | d :: ds, h => by
    have hd : d < base := h d (List.mem_cons_self _ _)
    have ih := textValue_reverse_map base hb ds (fun x hx => h x (List.mem_cons_of_mem _ hx))
    simp only [List.reverse_cons, List.map_append, List.map_cons, List.map_nil]
    rw [textValue_append_singleton, ih, charDigit_digitChar d (by omega)]
    simp only [valueRev]
    ring

theorem natText_value (base n : Nat) (hb : 2 ≤ base) (hb16 : base ≤ 16) :
    textValue base (natText base n) = n := by
  obtain ⟨h1, h2, _, _⟩ := digitsRev_spec base hb (n + 1) n (by omega)
  unfold natText
  rw [textValue_reverse_map base hb16 _ h1, h2]

theorem natText_length_le (base n k : Nat) (hb : 2 ≤ base) (hk : n < base ^ (k + 1)) :
    (natText base n).length ≤ k + 1 := by
  unfold natText
  simpa using digitsRev_length base hb k (n + 1) n (by omega) hk

theorem natText_ne_nil (base n : Nat) (hb : 2 ≤ base) : natText base n ≠ [] := by
  obtain ⟨_, _, h3, _⟩ := digitsRev_spec base hb (n + 1) n (by omega)
  unfold natText
  simpa using h3

theorem natText_hex_chars (n : Nat) : ∀ c ∈ natText 16 n, isUpperHexChar c := by
  obtain ⟨h1, _, _, _⟩ := digitsRev_spec 16 (by omega) (n + 1) n (by omega)
  intro c hc
  unfold natText at hc
  simp only [List.mem_map, List.mem_reverse] at hc
  obtain ⟨d, hd, rfl⟩ := hc
  have := h1 d hd
  unfold isUpperHexChar digitChar
  split <;> omega

theorem natText_dec_chars (n : Nat) : ∀ c ∈ natText 10 n, isDecChar c := by
  obtain ⟨h1, _, _, _⟩ := digitsRev_spec 10 (by omega) (n + 1) n (by omega)
  intro c hc
  unfold natText at hc
  simp only [List.mem_map, List.mem_reverse] at hc
  obtain ⟨d, hd, rfl⟩ := hc
  have := h1 d hd
  unfold isDecChar digitChar
  split <;> omega

theorem natText_head_ne_zero (base n : Nat) (hb : 2 ≤ base) (hn : 0 < n) :
    (natText base n).head? ≠ some 48 := by
  obtain ⟨h1, _, h3, h4⟩ := digitsRev_spec base hb (n + 1) n (by omega)
  have hl := h4 hn h3
  unfold natText
  rw [List.head?_map, List.head?_reverse, List.getLast?_eq_getLast _ h3]
  simp only [Option.map_some', ne_eq, Option.some.injEq]
  unfold digitChar
  split <;> omega

theorem textValue_replicate_zero (base : Nat) (k : Nat) (cs : List Nat) :
    textValue base (List.replicate k 48 ++ cs) = textValue base cs := by
  induction k with
  | zero => simp
  | succ k ih =>
    simp only [List.replicate_succ, List.cons_append]
    unfold textValue at ih ⊢
    simp only [List.foldl_cons]
    simpa [charDigit] using ih


/-! ## The read cycle as a whole -/

theorem readNBytes_written (p : Port) (byteCount offset : Int) (hw : p.writeErr = false) :
    (readNBytes p byteCount offset).2.written =
      p.written ++ [writeString byteCount offset ++ str ";"] := by
  unfold readNBytes
  simp only [hw, Bool.false_eq_true, ↓reduceIte]
  split
  · rfl
  · split <;> rfl

theorem readNBytes_of_exited (p : Port) (byteCount offset : Int) (chunk : List Nat)
    (rest : List ReadEvent) (hw : p.writeErr = false) (hcap : 0 ≤ byteCount * 2 + 63)
    (h : recvLoop p.reads (List.replicate (byteCount * 2 + 63).toNat 0) [] =
      RecvResult.exited chunk rest) :
    readNBytes p byteCount offset =
      (decodeResponse byteCount (writeString byteCount offset) chunk,
        { reads := rest, writeErr := p.writeErr,
          written := p.written ++ [writeString byteCount offset ++ str ";"] }) := by
  unfold readNBytes
  simp only [hw, Bool.false_eq_true, ↓reduceIte]
  rw [if_neg (by omega)]
  simp only [h]

theorem readNBytes_fatalDelimiter_iff (p : Port) (byteCount offset : Int) :
    (readNBytes p byteCount offset).1 = Outcome.fatalDelimiter ↔
      ∃ chunk rest, p.writeErr = false ∧ 0 ≤ byteCount * 2 + 63 ∧
        recvLoop p.reads (List.replicate (byteCount * 2 + 63).toNat 0) [] =
          RecvResult.exited chunk rest ∧
        ¬ writeString byteCount offset <:+: chunk := by
  constructor
  · intro h
    unfold readNBytes at h
    by_cases hw : p.writeErr = true
    · simp [hw] at h
    · have hw2 : p.writeErr = false := by simpa using hw
      simp only [hw2, Bool.false_eq_true, ↓reduceIte] at h
      by_cases hc : byteCount * 2 + 63 < 0
      · simp [hc] at h
      · rw [if_neg hc] at h
        split at h
        · cases h
        · cases h
        · rename_i chunk rest heq
          exact ⟨chunk, rest, hw2, by omega, heq,
            (decodeResponse_fatalDelimiter_iff _ _ _).1 h⟩
  · rintro ⟨chunk, rest, hw, hc, hl, hn⟩
    rw [readNBytes_of_exited p byteCount offset chunk rest hw hc hl]
    exact (decodeResponse_fatalDelimiter_iff _ _ _).2 hn

theorem Sprintf0x08X_nonneg (n : Nat) (h : n < 2 ^ 32) :
    ∃ hx, Sprintf0x08X (n : Int) = str "0x" ++ hx ∧ hx.length = 8 ∧
      (∀ c ∈ hx, isUpperHexChar c) ∧ textValue 16 hx = n := by
  refine ⟨padZeros 8 (natText 16 n), ?_, ?_, ?_, ?_⟩
  · unfold Sprintf0x08X
    rw [if_neg (by omega)]
    simp
  · have := natText_length_le 16 n 7 (by omega) (by simpa using h)
    unfold padZeros
    simp only [List.length_append, List.length_replicate]
    omega
  · intro c hc
    unfold padZeros at hc
    rcases List.mem_append.1 hc with hc | hc
    · have := (List.mem_replicate.1 hc).2
      subst this
      left; omega
    · exact natText_hex_chars n c hc
  · unfold padZeros
    rw [textValue_replicate_zero, natText_value 16 n (by omega) (by omega)]

theorem Itoa_pos (n : Nat) (h : 0 < n) :
    Itoa (n : Int) ≠ [] ∧ (∀ c ∈ Itoa (n : Int), isDecChar c) ∧
      (Itoa (n : Int)).head? ≠ some 48 ∧ textValue 10 (Itoa (n : Int)) = n := by
  have e : Itoa (n : Int) = natText 10 n := by
    unfold Itoa
    rw [if_neg (by omega)]
    simp
  rw [e]
  exact ⟨natText_ne_nil 10 n (by omega), natText_dec_chars n,
    natText_head_ne_zero 10 n (by omega) h, natText_value 10 n (by omega) (by omega)⟩


/-! ## Decoding lemmas -/

theorem reverseLoop_eq : ∀ (toks : List (List Nat)) (acc : List Nat),
    (∀ v ∈ toks, 8 ≤ v.length) →
    reverseLoop toks acc = some (acc ++ toks.flatMap swapGroup)
  | [], acc, _ => by simp [reverseLoop]
  | v :: vs, acc, h => by
    have hv : 8 ≤ v.length := h v (List.mem_cons_self _ _)
    simp only [reverseLoop, reverseGroup_of_le v hv]
    rw [reverseLoop_eq vs _ (fun w hw => h w (List.mem_cons_of_mem _ hw))]
    simp [List.flatMap_cons]

theorem fromHexChar_of_isHexChar (c : Nat) (h : isHexChar c) :
    fromHexChar c = some (hexDigitValue c) := by
  unfold isHexChar at h
  unfold fromHexChar hexDigitValue
  rcases h with h | h | h
  · rw [if_pos h, if_pos (by omega)]
  · rw [if_neg (by omega), if_neg (by omega), if_pos h, if_neg (by omega), if_pos (by omega)]
    congr 1; omega
  · rw [if_neg (by omega), if_pos h, if_neg (by omega), if_neg (by omega)]
    congr 1; omega

theorem DecodeString_pair (a b : Nat) (rest : List Nat) (ha : isHexChar a) (hb : isHexChar b) :
    DecodeString (a :: b :: rest) = (DecodeString rest).map (fun bs => hexPair a b :: bs) := by
  simp only [DecodeString, fromHexChar_of_isHexChar a ha, fromHexChar_of_isHexChar b hb]
  unfold hexPair
  congr 1
  funext bs
  congr 1
  ring

theorem DecodeString_groups : ∀ (toks : List (List Nat)),
    (∀ v ∈ toks, v.length = 8 ∧ ∀ c ∈ v, isHexChar c) →
    DecodeString (toks.flatMap swapGroup)
      = some (toks.flatMap groupBytes)
  | [], _ => by simp [DecodeString]
  | v :: vs, h => by
    obtain ⟨hl, hc⟩ := h v (List.mem_cons_self _ _)
    have ih := DecodeString_groups vs (fun w hw => h w (List.mem_cons_of_mem _ hw))
    match v, hl, hc with
    | [h0, h1, h2, h3, h4, h5, h6, h7], _, hc =>
      have c0 := hc h0 (by simp)
      have c1 := hc h1 (by simp)
      have c2 := hc h2 (by simp)
      have c3 := hc h3 (by simp)
      have c4 := hc h4 (by simp)
      have c5 := hc h5 (by simp)
      have c6 := hc h6 (by simp)
      have c7 := hc h7 (by simp)
      simp only [List.flatMap_cons]
      have e : swapGroup [h0, h1, h2, h3, h4, h5, h6, h7] = [h6, h7, h4, h5, h2, h3, h0, h1] := rfl
      rw [e]
      simp only [List.cons_append, List.nil_append]
      rw [DecodeString_pair _ _ _ c6 c7, DecodeString_pair _ _ _ c4 c5,
        DecodeString_pair _ _ _ c2 c3, DecodeString_pair _ _ _ c0 c1, ih]
      simp [groupBytes]

theorem DecodeString_none : ∀ (n : Nat) (s : List Nat), s.length ≤ n → s.length % 2 = 0 →
    DecodeString s = none → ∃ c ∈ s, fromHexChar c = none
  | _, [], _, _, h => by simp [DecodeString] at h
  | _, [_], _, hl, _ => by simp at hl
  | 0, _ :: _ :: _, hn, _, _ => by simp at hn
  | n + 1, p :: q :: rest, hn, hl, h => by
    simp only [DecodeString] at h
    cases hp : fromHexChar p with
    | none => exact ⟨p, by simp, hp⟩
    | some a =>
      cases hq : fromHexChar q with
      | none => exact ⟨q, by simp, hq⟩
      | some b =>
        simp only [hp, hq, Option.map_eq_none'] at h
        obtain ⟨c, hc, hn⟩ := DecodeString_none n rest (by simp at hn; omega)
          (by simp at hl; omega) h
        exact ⟨c, by simp [hc], hn⟩

theorem decodeWindow_eq (w : List Nat) :
    decodeWindow w =
      (match reverseLoop (Fields (normalize w)) [] with
      | none => Outcome.panicSlice
      | some encodedString =>
        match DecodeString encodedString with
        | none => Outcome.fatalDecode
        | some decodedBytes => Outcome.returned decodedBytes) := rfl

theorem decodeResponse_of_first (byteCount : Int) (c chunk : List Nat) (P : Nat)
    (hP : P ≤ chunk.length) (hocc : c <+: chunk.drop P)
    (hfirst : ∀ j, j < P → ¬ c <+: chunk.drop j) :
    decodeResponse byteCount c chunk =
      (match goSlice chunk ((P : Int) + (c.length : Int) + 2)
          ((P : Int) + (c.length : Int) + 2 + chunkLength byteCount) with
      | none => Outcome.panicSlice
      | some w => decodeWindow w) := by
  unfold decodeResponse
  simp only [Index_eq_of_first chunk c P hP hocc hfirst]
  rw [if_neg (by omega)]

theorem chunkLength_nonneg (byteCount : Int) (h : 0 ≤ byteCount) : 0 ≤ chunkLength byteCount := by
  unfold chunkLength
  have h4 := Int.tdiv_nonneg h (by omega : (0 : Int) ≤ 4)
  have h8 := Int.tdiv_nonneg h (by omega : (0 : Int) ≤ 8)
  omega

theorem goSlice_window (byteCount : Int) (chunk : List Nat) (lo : Nat) (h : 0 ≤ byteCount)
    (hlen : (lo : Int) + chunkLength byteCount ≤ (chunk.length : Int)) :
    goSlice chunk (lo : Int) ((lo : Int) + chunkLength byteCount) =
      some ((chunk.drop lo).take (chunkLength byteCount).toNat) := by
  have hn := chunkLength_nonneg byteCount h
  unfold goSlice
  rw [if_pos ⟨by omega, by omega, hlen⟩]
  have e1 : ((lo : Int)).toNat = lo := by omega
  have e2 : ((lo : Int) + chunkLength byteCount - (lo : Int)) = chunkLength byteCount := by ring
  rw [e1, e2]

theorem goSlice_drop (chunk : List Nat) (P : Nat) (lo hi : Int) (hP : P ≤ chunk.length)
    (hlo : 0 ≤ lo) :
    goSlice (chunk.drop P) lo hi = goSlice chunk ((P : Int) + lo) ((P : Int) + hi) := by
  unfold goSlice
  by_cases hc : 0 ≤ lo ∧ lo ≤ hi ∧ hi ≤ ((chunk.drop P).length : Int)
  · rw [if_pos hc, if_pos]
    · have e1 : ((P : Int) + lo).toNat = P + lo.toNat := by omega
      have e2 : ((P : Int) + hi - ((P : Int) + lo)) = hi - lo := by ring
      rw [e1, e2, List.drop_drop, Nat.add_comm]
    · rw [List.length_drop] at hc
      omega
  · rw [if_neg hc, if_neg]
    rw [List.length_drop] at hc
    omega


/-! ## White space in ASCII text -/

theorem decodeRune_ascii (c : Nat) (cs : List Nat) (h : c < 128) :
    decodeRune (c :: cs) = (c, 1) := by
  simp [decodeRune, h]

theorem spaceMask_ascii : ∀ (s : List Nat) (b : Bool), (∀ c ∈ s, c < 128) →
    spaceMask s 0 b = s.map isSpace
  | [], _, _ => rfl
  | c :: cs, b, h => by
    have hc : c < 128 := h c (List.mem_cons_self _ _)
    simp only [spaceMask, decodeRune_ascii c cs hc, List.map_cons]
    rw [spaceMask_ascii cs _ (fun x hx => h x (List.mem_cons_of_mem _ hx))]

theorem Fields_ascii (s : List Nat) (h : ∀ c ∈ s, c < 128) :
    Fields s = fieldsAux [] s (s.map isSpace) := by
  unfold Fields
  rw [spaceMask_ascii s false h]

theorem dropFlagged_map : ∀ (s : List Nat), dropFlagged s (s.map isSpace) = s.dropWhile isSpace
  | [] => rfl
  | c :: cs => by
    simp only [List.map_cons, dropFlagged, List.dropWhile_cons]
    split
    · exact dropFlagged_map cs
    · rfl

theorem map_drop_dropWhile : ∀ (s : List Nat),
    (s.map isSpace).drop (s.length - (s.dropWhile isSpace).length) =
      (s.dropWhile isSpace).map isSpace
  | [] => rfl
  | c :: cs => by
    have hle : (cs.dropWhile isSpace).length ≤ cs.length :=
      (List.dropWhile_sublist _).length_le
    simp only [List.dropWhile_cons]
    split
    · have e : (c :: cs).length - (cs.dropWhile isSpace).length =
          (cs.length - (cs.dropWhile isSpace).length) + 1 := by
        simp only [List.length_cons]; omega
      rw [e, List.map_cons, List.drop_succ_cons]
      exact map_drop_dropWhile cs
    · simp

theorem TrimSpace_ascii (s : List Nat) (h : ∀ c ∈ s, c < 128) :
    TrimSpace s = ((s.dropWhile isSpace).reverse.dropWhile isSpace).reverse := by
  unfold TrimSpace
  simp only [spaceMask_ascii s false h, dropFlagged_map, map_drop_dropWhile]
  rw [← List.map_reverse, dropFlagged_map]

theorem fieldsAux_spaces : ∀ (ws cur : List Nat), (∀ c ∈ ws, isSpace c = true) →
    fieldsAux cur ws (ws.map isSpace) = if cur.isEmpty then [] else [cur]
  | [], cur, _ => by simp [fieldsAux]
  | c :: cs, cur, h => by
    have hc : isSpace c = true := h c (List.mem_cons_self _ _)
    have ih := fieldsAux_spaces cs [] (fun x hx => h x (List.mem_cons_of_mem _ hx))
    simp only [List.map_cons, fieldsAux, hc, ↓reduceIte, ih]
    split <;> simp

theorem fieldsAux_append_spaces : ∀ (u ws cur : List Nat), (∀ c ∈ ws, isSpace c = true) →
    fieldsAux cur (u ++ ws) ((u ++ ws).map isSpace) = fieldsAux cur u (u.map isSpace)
  | [], ws, cur, h => by
    simp only [List.nil_append, fieldsAux_spaces ws cur h]
    simp [fieldsAux]
  | c :: cs, ws, cur, h => by
    have ih := fun cur => fieldsAux_append_spaces cs ws cur h
    simp only [List.cons_append, List.map_cons, fieldsAux]
    split
    · split
      · exact ih []
      · exact congrArg (cur :: ·) (ih [])
    · exact ih _

theorem fieldsAux_dropWhile : ∀ (s : List Nat),
    fieldsAux [] (s.dropWhile isSpace) ((s.dropWhile isSpace).map isSpace) =
      fieldsAux [] s (s.map isSpace)
  | [] => rfl
  | c :: cs => by
    simp only [List.dropWhile_cons]
    split
    · rename_i hc
      rw [fieldsAux_dropWhile cs]
      simp [fieldsAux, hc]
    · rfl

theorem reverse_dropWhile_reverse (t : List Nat) :
    ∃ ws, t = (t.reverse.dropWhile isSpace).reverse ++ ws ∧ ∀ c ∈ ws, isSpace c = true := by
  refine ⟨(t.reverse.takeWhile isSpace).reverse, ?_, ?_⟩
  · rw [← List.reverse_append, List.takeWhile_append_dropWhile, List.reverse_reverse]
  · intro c hc
    rw [List.mem_reverse] at hc
    exact List.mem_takeWhile_imp hc

theorem Fields_TrimSpace_ascii (s : List Nat) (h : ∀ c ∈ s, c < 128) :
    Fields (TrimSpace s) = fieldsAux [] s (s.map isSpace) := by
  have hsub : ∀ c ∈ TrimSpace s, c < 128 := by
    intro c hc
    rw [TrimSpace_ascii s h, List.mem_reverse] at hc
    have h1 := (List.dropWhile_sublist isSpace).subset hc
    rw [List.mem_reverse] at h1
    exact h c ((List.dropWhile_sublist isSpace).subset h1)
  rw [Fields_ascii _ hsub, TrimSpace_ascii s h]
  obtain ⟨ws, hws, hsp⟩ := reverse_dropWhile_reverse (s.dropWhile isSpace)
  rw [← fieldsAux_dropWhile s]
  conv_rhs => rw [hws]
  rw [fieldsAux_append_spaces _ ws [] hsp]


/-! ## Decoding the console's text -/

theorem strip_append (a b : List Nat) : strip (a ++ b) = strip a ++ strip b := by
  simp [strip, ReplaceAll, List.flatMap_append]

theorem strip_cons (c : Nat) (s : List Nat) :
    strip (c :: s) = if c = 13 ∨ c = 10 then strip s else c :: strip s := by
  unfold strip ReplaceAll
  by_cases h13 : c = 13
  · simp [h13, List.flatMap_cons]
  · by_cases h10 : c = 10
    · simp [h10, List.flatMap_cons]
    · simp [h13, h10, List.flatMap_cons]

theorem strip_of_no_crlf : ∀ (s : List Nat), (∀ c ∈ s, c ≠ 13 ∧ c ≠ 10) → strip s = s
  | [], _ => rfl
  | c :: cs, h => by
    have hc := h c (List.mem_cons_self _ _)
    rw [strip_cons, if_neg (by omega),
      strip_of_no_crlf cs (fun x hx => h x (List.mem_cons_of_mem _ hx))]

theorem mem_strip (s : List Nat) (c : Nat) : c ∈ strip s ↔ c ∈ s ∧ c ≠ 13 ∧ c ≠ 10 := by
  induction s with
  | nil => simp [strip, ReplaceAll]
  | cons a t ih =>
    rw [strip_cons]
    by_cases ha : a = 13 ∨ a = 10
    · rw [if_pos ha, ih]
      constructor
      · rintro ⟨h1, h2⟩; exact ⟨List.mem_cons_of_mem _ h1, h2⟩
      · rintro ⟨h1, h2⟩
        rcases List.mem_cons.1 h1 with rfl | h1
        · omega
        · exact ⟨h1, h2⟩
    · rw [if_neg ha, List.mem_cons, ih, List.mem_cons]
      constructor
      · rintro (rfl | ⟨h1, h2⟩)
        · exact ⟨Or.inl rfl, by omega⟩
        · exact ⟨Or.inr h1, h2⟩
      · rintro ⟨rfl | h1, h2⟩
        · exact Or.inl rfl
        · exact Or.inr ⟨h1, h2⟩

theorem hexChar_bounds (upper : Bool) (d : Nat) (h : d < 16) :
    hexChar upper d < 128 ∧ isSpace (hexChar upper d) = false ∧ hexChar upper d ≠ 13 ∧
      hexChar upper d ≠ 10 ∧ fromHexChar (hexChar upper d) = some d := by
  have hd : d ∈ List.range 16 := List.mem_range.2 h
  revert d
  cases upper <;> decide

theorem encodeByte_spec (upper : Bool) (b : Nat) (h : b < 256) :
    ∀ c ∈ encodeByte upper b, c < 128 ∧ isSpace c = false ∧ c ≠ 13 ∧ c ≠ 10 := by
  intro c hc
  have h1 := hexChar_bounds upper (b / 16) (by omega)
  have h2 := hexChar_bounds upper (b % 16) (by omega)
  simp only [encodeByte, List.mem_cons, List.mem_singleton, List.not_mem_nil, or_false] at hc
  rcases hc with rfl | rfl
  · exact ⟨h1.1, h1.2.1, h1.2.2.1, h1.2.2.2.1⟩
  · exact ⟨h2.1, h2.2.1, h2.2.2.1, h2.2.2.2.1⟩

theorem DecodeString_encodeByte (upper : Bool) (b : Nat) (rest : List Nat) (h : b < 256) :
    DecodeString (encodeByte upper b ++ rest) = (DecodeString rest).map (fun bs => b :: bs) := by
  have h1 := (hexChar_bounds upper (b / 16) (by omega)).2.2.2.2
  have h2 := (hexChar_bounds upper (b % 16) (by omega)).2.2.2.2
  simp only [encodeByte, List.cons_append, List.nil_append, DecodeString, h1, h2]
  have e : b / 16 * 16 + b % 16 = b := by omega
  rw [e]
  rfl

/-- The characters of a group are hex digits: no white space, no CR or LF. -/
theorem group_spec (upper : Bool) (b0 b1 b2 b3 : Nat) (h0 : b0 < 256) (h1 : b1 < 256)
    (h2 : b2 < 256) (h3 : b3 < 256) :
    ∀ c ∈ encodeByte upper b3 ++ encodeByte upper b2 ++ encodeByte upper b1 ++ encodeByte upper b0,
      c < 128 ∧ isSpace c = false ∧ c ≠ 13 ∧ c ≠ 10 := by
  intro c hc
  simp only [List.mem_append] at hc
  rcases hc with ((hc | hc) | hc) | hc
  · exact encodeByte_spec upper b3 h3 c hc
  · exact encodeByte_spec upper b2 h2 c hc
  · exact encodeByte_spec upper b1 h1 c hc
  · exact encodeByte_spec upper b0 h0 c hc

theorem fieldsAux_token : ∀ (g cur rest : List Nat), (∀ c ∈ g, isSpace c = false) →
    fieldsAux cur (g ++ rest) ((g ++ rest).map isSpace) =
      fieldsAux (cur ++ g) rest (rest.map isSpace)
  | [], cur, rest, _ => by simp
  | c :: cs, cur, rest, h => by
    have hc : isSpace c = false := h c (List.mem_cons_self _ _)
    have ih := fieldsAux_token cs (cur ++ [c]) rest (fun x hx => h x (List.mem_cons_of_mem _ hx))
    simp only [List.cons_append, List.map_cons, fieldsAux, hc, Bool.false_eq_true, ↓reduceIte]
    have e : cur ++ [c] ++ cs = cur ++ c :: cs := by simp
    rw [← e]
    exact ih

theorem fieldsAux_spaces_then : ∀ (ws rest : List Nat), (∀ c ∈ ws, isSpace c = true) →
    fieldsAux [] (ws ++ rest) ((ws ++ rest).map isSpace) = fieldsAux [] rest (rest.map isSpace)
  | [], _, _ => by simp
  | c :: cs, rest, h => by
    have hc : isSpace c = true := h c (List.mem_cons_self _ _)
    have ih := fieldsAux_spaces_then cs rest (fun x hx => h x (List.mem_cons_of_mem _ hx))
    simp only [List.cons_append, List.map_cons, fieldsAux, hc, ↓reduceIte, List.isEmpty_nil]
    exact ih

theorem fieldsAux_sep : ∀ (ws cur rest : List Nat), ws ≠ [] → (∀ c ∈ ws, isSpace c = true) →
    cur ≠ [] →
    fieldsAux cur (ws ++ rest) ((ws ++ rest).map isSpace) =
      cur :: fieldsAux [] rest (rest.map isSpace)
  | [], _, _, h, _, _ => absurd rfl h
  | [c], cur, rest, _, h, hcur => by
    have hc : isSpace c = true := h c (List.mem_cons_self _ _)
    have he : cur.isEmpty = false := by cases cur <;> simp_all
    simp [fieldsAux, hc, he]
  | c :: d :: ws, cur, rest, _, h, hcur => by
    have hc : isSpace c = true := h c (List.mem_cons_self _ _)
    have hd : isSpace d = true := h d (by simp)
    have he : cur.isEmpty = false := by cases cur <;> simp_all
    have ih := fieldsAux_spaces_then ws rest (fun x hx => h x (by simp [hx]))
    simp only [List.cons_append, List.map_cons, fieldsAux, hc, hd, he, ↓reduceIte,
      Bool.false_eq_true, List.isEmpty_nil]
    exact congrArg (cur :: ·) ih


theorem strip_consoleEncode (upper : Bool) : ∀ (seps : List (List Nat)) (B : List Nat),
    (∀ b ∈ B, b < 256) →
    strip (consoleEncode upper B seps) = consoleEncode upper B (seps.map strip)
  | [], B, _ => by
    cases B with
    | nil => rfl
    | cons b0 B =>
      cases B with
      | nil => rfl
      | cons b1 B =>
        cases B with
        | nil => rfl
        | cons b2 B => cases B <;> rfl
  | sep :: seps, [], _ => rfl
  | sep :: seps, [_], _ => rfl
  | sep :: seps, [_, _], _ => rfl
  | sep :: seps, [_, _, _], _ => rfl
  | sep :: seps, b0 :: b1 :: b2 :: b3 :: rest, h => by
    have hg := group_spec upper b0 b1 b2 b3 (h b0 (by simp)) (h b1 (by simp)) (h b2 (by simp))
      (h b3 (by simp))
    have ih := strip_consoleEncode upper seps rest (fun b hb => h b (by simp [hb]))
    simp only [consoleEncode, List.map_cons]
    rw [strip_append, strip_append, ih, strip_of_no_crlf _ (fun c hc => (hg c hc).2.2)]

theorem consoleEncode_ascii (upper : Bool) : ∀ (seps : List (List Nat)) (B : List Nat),
    (∀ b ∈ B, b < 256) → (∀ s ∈ seps, ∀ c ∈ s, c < 128) →
    ∀ c ∈ consoleEncode upper B seps, c < 128
  | [], B, _, _ => by
    intro c hc
    cases B with
    | nil => simp [consoleEncode] at hc
    | cons b0 B =>
      cases B with
      | nil => simp [consoleEncode] at hc
      | cons b1 B =>
        cases B with
        | nil => simp [consoleEncode] at hc
        | cons b2 B => cases B <;> simp [consoleEncode] at hc
  | sep :: seps, [], _, _ => by simp [consoleEncode]
  | sep :: seps, [_], _, _ => by simp [consoleEncode]
  | sep :: seps, [_, _], _, _ => by simp [consoleEncode]
  | sep :: seps, [_, _, _], _, _ => by simp [consoleEncode]
  | sep :: seps, b0 :: b1 :: b2 :: b3 :: rest, h, hs => by
    have hg := group_spec upper b0 b1 b2 b3 (h b0 (by simp)) (h b1 (by simp)) (h b2 (by simp))
      (h b3 (by simp))
    have ih := consoleEncode_ascii upper seps rest (fun b hb => h b (by simp [hb]))
      (fun s hs1 => hs s (List.mem_cons_of_mem _ hs1))
    intro c hc
    simp only [consoleEncode] at hc
    rcases List.mem_append.1 hc with hc | hc
    · rcases List.mem_append.1 hc with hc | hc
      · exact (hg c hc).1
      · exact hs sep (List.mem_cons_self _ _) c hc
    · exact ih c hc

theorem fields_consoleEncode (upper : Bool) : ∀ (seps : List (List Nat)) (B : List Nat),
    B.length = 4 * seps.length → (∀ b ∈ B, b < 256) →
    (∀ s ∈ seps, s ≠ [] ∧ ∀ c ∈ s, isSpace c = true) →
    fieldsAux [] (consoleEncode upper B seps) ((consoleEncode upper B seps).map isSpace) =
      groupsOf upper B
  | [], B, hl, _, _ => by
    have : B = [] := List.length_eq_zero.1 (by simpa using hl)
    subst this
    rfl
  | sep :: seps, [], hl, _, _ => by simp at hl
  | sep :: seps, [_], hl, _, _ => by simp at hl; omega
  | sep :: seps, [_, _], hl, _, _ => by simp at hl; omega
  | sep :: seps, [_, _, _], hl, _, _ => by simp at hl; omega
  | sep :: seps, b0 :: b1 :: b2 :: b3 :: rest, hl, h, hs => by
    have hg := group_spec upper b0 b1 b2 b3 (h b0 (by simp)) (h b1 (by simp)) (h b2 (by simp))
      (h b3 (by simp))
    have ih := fields_consoleEncode upper seps rest (by simp at hl; omega)
      (fun b hb => h b (by simp [hb])) (fun s hs1 => hs s (List.mem_cons_of_mem _ hs1))
    have hsep := hs sep (List.mem_cons_self _ _)
    simp only [consoleEncode, groupsOf]
    rw [List.append_assoc, fieldsAux_token _ [] _ (fun c hc => (hg c hc).2.1), List.nil_append,
      fieldsAux_sep sep _ _ hsep.1 hsep.2 (by simp [encodeByte]), ih]

theorem groupsOf_length (upper : Bool) : ∀ (n : Nat) (B : List Nat), B.length ≤ n →
    ∀ v ∈ groupsOf upper B, 8 ≤ v.length
  | _, [], _ => by simp [groupsOf]
  | _, [_], _ => by simp [groupsOf]
  | _, [_, _], _ => by simp [groupsOf]
  | _, [_, _, _], _ => by simp [groupsOf]
  | 0, _ :: _ :: _ :: _ :: _, hn => by simp at hn
  | n + 1, b0 :: b1 :: b2 :: b3 :: rest, hn => by
    intro v hv
    simp only [groupsOf, List.mem_cons] at hv
    rcases hv with rfl | hv
    · simp [encodeByte]
    · exact groupsOf_length upper n rest (by simp at hn; omega) v hv

theorem DecodeString_groupsOf (upper : Bool) : ∀ (n : Nat) (B : List Nat), B.length = 4 * n →
    (∀ b ∈ B, b < 256) →
    DecodeString ((groupsOf upper B).flatMap swapGroup) = some B
  | 0, B, hl, _ => by
    have : B = [] := List.length_eq_zero.1 (by simpa using hl)
    subst this
    rfl
  | n + 1, [], hl, _ => by simp at hl
  | n + 1, [_], hl, _ => by simp at hl; omega
  | n + 1, [_, _], hl, _ => by simp at hl; omega
  | n + 1, [_, _, _], hl, _ => by simp at hl; omega
  | n + 1, b0 :: b1 :: b2 :: b3 :: rest, hl, h => by
    have ih := DecodeString_groupsOf upper n rest (by simp at hl; omega)
      (fun b hb => h b (by simp [hb]))
    have e : swapGroup (encodeByte upper b3 ++ encodeByte upper b2 ++ encodeByte upper b1 ++
        encodeByte upper b0) =
        encodeByte upper b0 ++ (encodeByte upper b1 ++ (encodeByte upper b2 ++
          (encodeByte upper b3 ++ []))) := rfl
    simp only [groupsOf, List.flatMap_cons]
    rw [e]
    simp only [List.append_assoc]
    rw [DecodeString_encodeByte upper b0 _ (h b0 (by simp)),
      DecodeString_encodeByte upper b1 _ (h b1 (by simp)),
      DecodeString_encodeByte upper b2 _ (h b2 (by simp)),
      DecodeString_encodeByte upper b3 _ (h b3 (by simp)), List.nil_append, ih]
    rfl

theorem isSeparator_strip (s : List Nat) (h : isSeparator s) :
    (strip s ≠ [] ∧ ∀ c ∈ strip s, isSpace c = true) ∧ ∀ c ∈ strip s, c < 128 := by
  obtain ⟨h1, c0, hc0, h2⟩ := h
  have hmem : c0 ∈ strip s := (mem_strip s c0).2 ⟨hc0, by omega, by omega⟩
  refine ⟨⟨List.ne_nil_of_mem hmem, ?_⟩, ?_⟩
  · intro c hc
    have hc1 := (mem_strip s c).1 hc
    rcases h1 c hc1.1 with rfl | rfl | rfl | rfl | rfl | rfl <;> rfl
  · intro c hc
    have hc1 := (mem_strip s c).1 hc
    rcases h1 c hc1.1 with rfl | rfl | rfl | rfl | rfl | rfl <;> omega

/-- The window decoder inverts the console's format. -/
theorem decodeWindow_consoleEncode (upper : Bool) (B : List Nat) (seps : List (List Nat))
    (hl : B.length = 4 * seps.length) (hB : ∀ b ∈ B, b < 256)
    (hs : ∀ s ∈ seps, isSeparator s) :
    decodeWindow (consoleEncode upper B seps) = Outcome.returned B := by
  have hs1 : ∀ s ∈ seps.map strip, s ≠ [] ∧ ∀ c ∈ s, isSpace c = true := by
    intro s hmem
    obtain ⟨t, ht, rfl⟩ := List.mem_map.1 hmem
    exact (isSeparator_strip t (hs t ht)).1
  have hs2 : ∀ s ∈ seps.map strip, ∀ c ∈ s, c < 128 := by
    intro s hmem
    obtain ⟨t, ht, rfl⟩ := List.mem_map.1 hmem
    exact (isSeparator_strip t (hs t ht)).2
  have hfields : Fields (normalize (consoleEncode upper B seps)) = groupsOf upper B := by
    have e : normalize (consoleEncode upper B seps) =
        TrimSpace (consoleEncode upper B (seps.map strip)) := by
      rw [← strip_consoleEncode upper seps B hB]
      rfl
    rw [e, Fields_TrimSpace_ascii _ (consoleEncode_ascii upper _ B hB hs2)]
    exact fields_consoleEncode upper _ B (by simpa using hl) hB hs1
  rw [decodeWindow_eq, hfields,
    reverseLoop_eq _ _ (groupsOf_length upper B.length B le_rfl), List.nil_append]
  simp only [DecodeString_groupsOf upper seps.length B hl hB]

/-- The decoder on a response that carries the console's text right after
the echoed command and two more characters. -/
theorem decodeResponse_console (L : Int) (ws pre gap post : List Nat) (upper : Bool)
    (B : List Nat) (seps : List (List Nat)) (hl : B.length = 4 * seps.length)
    (hB : ∀ b ∈ B, b < 256) (hs : ∀ s ∈ seps, isSeparator s) (hL : 0 ≤ L)
    (hlen : ((consoleEncode upper B seps).length : Int) = chunkLength L)
    (hgap : gap.length = 2)
    (hfirst : ∀ j, j < pre.length →
      ¬ ws <+: (pre ++ ws ++ gap ++ consoleEncode upper B seps ++ post).drop j) :
    decodeResponse L ws (pre ++ ws ++ gap ++ consoleEncode upper B seps ++ post) =
      Outcome.returned B := by
  have hocc : ws <+: (pre ++ ws ++ gap ++ consoleEncode upper B seps ++ post).drop pre.length := by
    simp only [List.append_assoc, List.drop_left]
    exact List.prefix_append _ _
  have hP : pre.length ≤ (pre ++ ws ++ gap ++ consoleEncode upper B seps ++ post).length := by
    simp only [List.length_append]; omega
  rw [decodeResponse_of_first L ws _ pre.length hP hocc hfirst]
  have hw := goSlice_window L (pre ++ ws ++ gap ++ consoleEncode upper B seps ++ post)
    (pre.length + ws.length + 2) hL (by
      simp only [List.length_append, hgap]
      push_cast
      rw [← hlen]
      omega)
  have hw2 : goSlice (pre ++ ws ++ gap ++ consoleEncode upper B seps ++ post)
      ((pre.length : Int) + (ws.length : Int) + 2)
      ((pre.length : Int) + (ws.length : Int) + 2 + chunkLength L) =
      some (consoleEncode upper B seps) := by
    have e : (pre ++ ws ++ gap ++ consoleEncode upper B seps ++ post) =
        (pre ++ ws ++ gap) ++ (consoleEncode upper B seps ++ post) := by
      simp only [List.append_assoc]
    have e2 : pre.length + ws.length + 2 = (pre ++ ws ++ gap).length := by
      simp only [List.length_append, hgap]
    have e3 : (chunkLength L).toNat = (consoleEncode upper B seps).length := by
      rw [← hlen]; simp
    rw [e, e2, List.drop_left, e3, List.take_left] at hw
    rw [← hw, e]
    simp only [List.length_append, hgap]
    push_cast
    rfl
  rw [hw2]
  exact decodeWindow_consoleEncode upper B seps hl hB hs


set_option maxRecDepth 100000

theorem consoleEncode_length (upper : Bool) : ∀ (seps : List (List Nat)) (B : List Nat),
    B.length = 4 * seps.length →
    (consoleEncode upper B seps).length = 8 * seps.length + (seps.map List.length).sum
  | [], B, hl => by
    have : B = [] := List.length_eq_zero.1 (by simpa using hl)
    subst this
    rfl
  | sep :: seps, [], hl => by simp at hl
  | sep :: seps, [_], hl => by simp at hl; omega
  | sep :: seps, [_, _], hl => by simp at hl; omega
  | sep :: seps, [_, _, _], hl => by simp at hl; omega
  | sep :: seps, b0 :: b1 :: b2 :: b3 :: rest, hl => by
    have ih := consoleEncode_length upper seps rest (by simp at hl; omega)
    simp only [consoleEncode, List.length_append, ih, encodeByte, List.length_cons,
      List.length_nil, List.map_cons, List.sum_cons]
    omega

/-- With one space after every group and one more after every second group
the payload of an allowed chunk size has the length `readNBytes` expects. -/
theorem consoleSeps_payload_length (upper : Bool) (L : Int) (B : List Nat)
    (hL : L ∈ allowedChunkSizes) (hBL : (B.length : Int) = L) :
    B.length = 4 * (consoleSeps (B.length / 4)).length ∧
    (∀ s ∈ consoleSeps (B.length / 4), isSeparator s) ∧
    ((consoleEncode upper B (consoleSeps (B.length / 4))).length : Int) = chunkLength L := by
  simp only [allowedChunkSizes, List.mem_cons, List.mem_singleton, List.not_mem_nil,
    or_false] at hL
  have hsep : ∀ n, ∀ s ∈ consoleSeps n, isSeparator s := by
    intro n s hs
    simp only [consoleSeps, List.mem_map, List.mem_range] at hs
    obtain ⟨i, _, rfl⟩ := hs
    split <;> decide
  have hlen : ∀ n, (consoleSeps n).length = n := by
    intro n; simp [consoleSeps]
  refine ⟨by rw [hlen]; rcases hL with rfl | rfl | rfl | rfl | rfl <;> omega, hsep _, ?_⟩
  have hl4 : B.length = 4 * (consoleSeps (B.length / 4)).length := by
    rw [hlen]; rcases hL with rfl | rfl | rfl | rfl | rfl <;> omega
  rw [consoleEncode_length upper _ B hl4, hlen]
  rcases hL with rfl | rfl | rfl | rfl | rfl
  · have e : B.length = 64 := by omega
    have e2 : ((consoleSeps 16).map List.length).sum = 24 := by decide
    rw [e]; simp only [Nat.reduceDiv, e2]; decide
  · have e : B.length = 128 := by omega
    have e2 : ((consoleSeps 32).map List.length).sum = 48 := by decide
    rw [e]; simp only [Nat.reduceDiv, e2]; decide
  · have e : B.length = 256 := by omega
    have e2 : ((consoleSeps 64).map List.length).sum = 96 := by decide
    rw [e]; simp only [Nat.reduceDiv, e2]; decide
  · have e : B.length = 512 := by omega
    have e2 : ((consoleSeps 128).map List.length).sum = 192 := by decide
    rw [e]; simp only [Nat.reduceDiv, e2]; decide
  · have e : B.length = 1024 := by omega
    have e2 : ((consoleSeps 256).map List.length).sum = 384 := by decide
    rw [e]; simp only [Nat.reduceDiv, e2]; decide

/-! ## The receive loop -/

theorem recvLoop_exit (evs : List ReadEvent) (buf cur : List Nat)
    (h : Contains buf terminator = true) :
    recvLoop evs buf cur = RecvResult.exited cur evs := by
  rw [recvLoop.eq_def]
  simp only [h, ↓reduceIte]

theorem recvLoop_data (bs : List Nat) (rest : List ReadEvent) (buf cur : List Nat)
    (h : Contains buf terminator = false) :
    recvLoop (ReadEvent.data bs :: rest) buf cur =
      recvLoop rest (bs.take buf.length ++ buf.drop (bs.take buf.length).length)
        (cur ++ bs.take buf.length) := by
  simp [recvLoop, h]

theorem recvLoop_nil (buf cur : List Nat) (h : Contains buf terminator = false) :
    recvLoop [] buf cur = RecvResult.blocked := by
  simp [recvLoop, h]

theorem terminator_not_in_zeros (x k : Nat) : ¬ terminator <:+: x :: List.replicate k 0 := by
  rintro ⟨a, b, h⟩
  cases a with
  | nil =>
    simp only [terminator, List.nil_append, List.cons_append, List.cons.injEq] at h
    have : 10 ∈ List.replicate k 0 := by rw [← h.2]; simp
    have := (List.mem_replicate.1 this).2
    omega
  | cons a0 a1 =>
    simp only [terminator, List.cons_append, List.cons.injEq] at h
    have : 13 ∈ List.replicate k 0 := by rw [← h.2]; simp
    have := (List.mem_replicate.1 this).2
    omega

theorem Contains_zeros (x k : Nat) : Contains (x :: List.replicate k 0) terminator = false := by
  have := terminator_not_in_zeros x k
  rw [← Contains_iff] at this
  simpa using this

/-- Reads of one byte never let the loop exit: the buffer holds one byte and
zeros. -/
theorem recvLoop_bytewise : ∀ (text : List Nat) (x k : Nat) (cur : List Nat),
    recvLoop (text.map (fun b => ReadEvent.data [b])) (x :: List.replicate k 0) cur =
      RecvResult.blocked
  | [], x, k, cur => recvLoop_nil _ _ (Contains_zeros x k)
  | b :: bs, x, k, cur => by
    simp only [List.map_cons]
    rw [recvLoop_data _ _ _ _ (Contains_zeros x k)]
    simpa using recvLoop_bytewise bs b k (cur ++ [b])

theorem readNBytes_bytewise (text : List Nat) (byteCount offset : Int) (h : 0 ≤ byteCount) :
    (readNBytes (bytewisePort text) byteCount offset).1 = Outcome.hang := by
  obtain ⟨k, hk⟩ : ∃ k, (byteCount * 2 + 63).toNat = k + 1 := ⟨(byteCount * 2 + 62).toNat, by omega⟩
  unfold readNBytes
  simp only [bytewisePort, Bool.false_eq_true, ↓reduceIte]
  rw [if_neg (by omega), hk, List.replicate_succ, recvLoop_bytewise]


/-! ## The dump loop and the port -/

theorem readNBytes_returned_writeErr (p : Port) (byteCount offset : Int) (bs : List Nat)
    (h : (readNBytes p byteCount offset).1 = Outcome.returned bs) : p.writeErr = false := by
  cases hw : p.writeErr with
  | false => rfl
  | true =>
    unfold readNBytes at h
    simp [hw] at h

theorem sentCommands_succ (c : Int) (n : Nat) :
    sentCommands c (n + 1) = sentCommands c n ++ [writeString c (c * (n : Int)) ++ str ";"] := by
  simp [sentCommands, List.range_succ]

theorem dumpBody_chain (c iterSize : Int) (port : Port) (st : DumpState) (ports : Nat → Port)
    (hrun : st.stopped = none) (hinv : DumpInv c st) (h : DumpChain c port st ports) :
    ∃ ports2 : Nat → Port, DumpChain c port (dumpBody c iterSize st) ports2 := by
  unfold dumpBody
  by_cases hi : st.index = iterSize
  · rw [if_pos hi]; exact ⟨ports, h⟩
  · rw [if_neg hi]
    have hidx := hinv.index_eq
    have hcur := h.current hrun
    have hsent := h.sent hrun
    simp only
    split
    · rename_i bs hb
      have hw := readNBytes_returned_writeErr _ _ _ _ hb
      have hwr := readNBytes_written st.serialPort c (c * st.index) hw
      refine ⟨Function.update ports (st.chunks.length + 1)
        (readNBytes st.serialPort c (c * st.index)).2, ?_, ?_, ?_, ?_⟩
      · rw [Function.update_noteq (by omega)]
        exact h.start
      · intro _
        have e : (st.chunks ++ [bs]).length = st.chunks.length + 1 := by simp
        show Function.update ports (st.chunks.length + 1) _ (st.chunks ++ [bs]).length = _
        rw [e, Function.update_same]
      · intro _
        simp only [List.length_append, List.length_singleton]
        rw [hwr, hsent, sentCommands_succ, hidx, List.append_assoc]
      · intro i ch hch
        by_cases hlt : i < st.chunks.length
        · rw [List.getElem?_append_left hlt] at hch
          rw [Function.update_noteq (by omega), Function.update_noteq (by omega)]
          exact h.reads i ch hch
        · have hlen := (List.getElem?_eq_some_iff.1 hch).1
          simp only [List.length_append, List.length_singleton] at hlen
          have hik : i = st.chunks.length := by omega
          subst hik
          have hch2 : bs = ch := by simpa using hch
          subst hch2
          rw [Function.update_noteq (by omega), Function.update_same, hcur, ← hidx]
          exact Prod.ext hb rfl
    · refine ⟨ports, h.start, ?_, ?_, h.reads⟩
      · intro hn; simp at hn
      · intro hn; simp at hn

theorem tqdmR_chain (c iterSize : Int) (port : Port) : ∀ (n : Nat) (st : DumpState)
    (ports : Nat → Port), DumpInv c st → DumpChain c port st ports →
    ∃ ports2 : Nat → Port, DumpChain c port (tqdmR n (dumpBody c iterSize) st) ports2
  | 0, st, ports, _, h => ⟨ports, h⟩
  | n + 1, st, ports, hinv, h => by
    simp only [tqdmR]
    split
    · exact ⟨ports, h⟩
    · rename_i hs
      have hrun : st.stopped = none := by
        cases hst : st.stopped with
        | none => rfl
        | some o => simp [hst] at hs
      obtain ⟨ports2, h2⟩ := dumpBody_chain c iterSize port st ports hrun hinv h
      exact tqdmR_chain c iterSize port n _ ports2 (dumpBody_inv c iterSize st hrun hinv) h2

/-- The loop completes when every read of the chain returns. -/
theorem tqdmR_completes (c iterSize : Int) (ports : Nat → Port) : ∀ (n k : Nat)
    (st : DumpState), st.index = (k : Int) → st.stopped = none → st.serialPort = ports k →
    (k : Int) + (n : Int) ≤ iterSize →
    (∀ i : Nat, k ≤ i → i < k + n →
      ∃ ch, readNBytes (ports i) c (c * (i : Int)) = (Outcome.returned ch, ports (i + 1))) →
    (tqdmR n (dumpBody c iterSize) st).stopped = none
  | 0, _, st, _, hs, _, _, _ => by simpa [tqdmR] using hs
  | n + 1, k, st, hi, hs, hp, hk, hr => by
    have hne : st.index ≠ iterSize := by rw [hi]; push_cast at hk; omega
    obtain ⟨ch, hch⟩ := hr k (le_refl k) (by omega)
    have hbody : dumpBody c iterSize st =
        DumpState.mk (st.index + 1) (ports (k + 1)) (st.dumpFile ++ ch)
          (st.calls ++ [(c, c * st.index)]) (st.chunks ++ [ch]) none := by
      unfold dumpBody
      rw [if_neg hne, hi, hp, hch]
    have ih := tqdmR_completes c iterSize ports n (k + 1) (dumpBody c iterSize st)
      (by rw [hbody]; simp [hi]) (by rw [hbody]) (by rw [hbody])
      (by push_cast at hk ⊢; omega) (fun i h1 h2 => hr i (by omega) (by omega))
    simp only [tqdmR, hs, Option.isSome_none, Bool.false_eq_true, ↓reduceIte]
    exact ih

/-- The dump loop completes when each of its reads returns: `ports i` being
the port before read `i`, the run started on `ports 0` ends without a fatal
error, panic or blocked read. -/
theorem dumpLoop_completes (c : Int) (ports : Nat → Port) (hc : c ∈ allowedChunkSizes)
    (hr : ∀ i : Nat, i < (Int.tdiv 2097152 c).toNat →
      ∃ ch, readNBytes (ports i) c (c * (i : Int)) = (Outcome.returned ch, ports (i + 1))) :
    (dumpLoop c (ports 0)).stopped = none := by
  have hpos : 0 ≤ Int.tdiv 2097152 c := by
    simp only [allowedChunkSizes, List.mem_cons, List.mem_singleton, List.not_mem_nil,
      or_false] at hc
    rcases hc with rfl | rfl | rfl | rfl | rfl <;> decide
  have e : (Int.tdiv 2097152 c - 0).toNat = (Int.tdiv 2097152 c).toNat := by simp
  unfold dumpLoop dumpLoopOf
  simp only [e]
  exact tqdmR_completes c (Int.tdiv 2097152 c) ports (Int.tdiv 2097152 c).toNat 0 _ rfl rfl rfl
    (by omega) (fun i _ h2 => hr i (by omega))

/-! ## A complete run of the dump loop -/

set_option maxRecDepth 100000

theorem writeString_64_length (offset : Int) (h0 : 0 ≤ offset) (h1 : offset < 2 ^ 32) :
    (writeString 64 offset).length = 20 := by
  obtain ⟨n, rfl⟩ := Int.eq_ofNat_of_zero_le h0
  obtain ⟨hx, e1, e2, _, _⟩ := Sprintf0x08X_nonneg n (by exact_mod_cast h1)
  have e3 : Itoa 64 = [54, 52] := by decide
  unfold writeString
  rw [e1, e3]
  simp [str, e2]

theorem readNBytes_responseAt (p : Port) (offset : Int) (rest : List ReadEvent)
    (h0 : 0 ≤ offset) (h1 : offset < 2 ^ 32) (hw : p.writeErr = false)
    (hr : p.reads = ReadEvent.data (responseAt offset) :: rest) :
    readNBytes p 64 offset =
      (Outcome.returned sampleBytes,
        { reads := rest, writeErr := p.writeErr,
          written := p.written ++ [writeString 64 offset ++ str ";"] }) := by
  have hlen : (responseAt offset).length = 180 := by
    have e1 : samplePayload.length = 152 := by decide
    simp only [responseAt, List.length_append, writeString_64_length offset h0 h1, e1]
    rfl
  have hloop : recvLoop p.reads (List.replicate ((64 : Int) * 2 + 63).toNat 0) [] =
      RecvResult.exited (responseAt offset) rest := by
    have e : ((64 : Int) * 2 + 63).toNat = 190 + 1 := by decide
    rw [hr, e, List.replicate_succ, recvLoop_data _ _ _ _ (Contains_zeros 0 190)]
    have ht : List.take (0 :: List.replicate 190 0).length (responseAt offset) =
        responseAt offset := by
      apply List.take_of_length_le
      simp [hlen]
    rw [ht, List.nil_append]
    apply recvLoop_exit
    rw [Contains_iff]
    refine ⟨writeString 64 offset ++ str "\r\n" ++ samplePayload, List.drop (responseAt offset).length
      (0 :: List.replicate 190 0), ?_⟩
    simp [responseAt]
  rw [readNBytes_of_exited p 64 offset _ rest hw (by decide) hloop]
  have hdec : decodeResponse 64 (writeString 64 offset)
      ([] ++ writeString 64 offset ++ str "\r\n" ++ consoleEncode true sampleBytes (consoleSeps 16)
        ++ terminator) = Outcome.returned sampleBytes :=
    decodeResponse_console 64 _ [] (str "\r\n") terminator true sampleBytes (consoleSeps 16)
      (by decide) (by decide) (by decide) (by decide) (by decide) (by decide)
      (fun j hj => absurd hj (Nat.not_lt_zero j))
  rw [List.nil_append] at hdec
  have e : responseAt offset = writeString 64 offset ++ str "\r\n" ++
      consoleEncode true sampleBytes (consoleSeps 16) ++ terminator := rfl
  rw [e, hdec]

theorem tqdmR_serving (N : Int) : ∀ (n k : Nat) (st : DumpState),
    st.index = (k : Int) → st.stopped = none → st.serialPort.writeErr = false →
    st.serialPort.reads =
      (List.range' k n).map (fun (i : Nat) => ReadEvent.data (responseAt (64 * (i : Int)))) →
    (k : Int) + (n : Int) ≤ N → N ≤ 67108864 →
    (tqdmR n (dumpBody 64 N) st).stopped = none ∧
      (tqdmR n (dumpBody 64 N) st).dumpFile =
        st.dumpFile ++ (List.replicate n sampleBytes).flatten
  | 0, _, st, _, hs, _, _, _, _ => by simp [tqdmR, hs]
  | n + 1, k, st, hi, hs, hw, hr, hk, hN => by
    have hne : st.index ≠ N := by rw [hi]; push_cast at hk; omega
    have hr2 : st.serialPort.reads = ReadEvent.data (responseAt (64 * (k : Int))) ::
        (List.range' (k + 1) n).map (fun (i : Nat) => ReadEvent.data (responseAt (64 * (i : Int)))) := by
      rw [hr, List.range'_succ, List.map_cons]
    have hstep := readNBytes_responseAt st.serialPort (64 * (k : Int)) _ (by omega)
      (by push_cast at hk; omega) hw hr2
    have hbody : dumpBody 64 N st =
        DumpState.mk (st.index + 1)
          (Port.mk ((List.range' (k + 1) n).map
              (fun (i : Nat) => ReadEvent.data (responseAt (64 * (i : Int)))))
            st.serialPort.writeErr
            (st.serialPort.written ++ [writeString 64 (64 * (k : Int)) ++ str ";"]))
          (st.dumpFile ++ sampleBytes) (st.calls ++ [(64, 64 * st.index)])
          (st.chunks ++ [sampleBytes]) none := by
      unfold dumpBody
      rw [if_neg hne, hi, hstep]
    have ih := tqdmR_serving N n (k + 1) (dumpBody 64 N st) (by rw [hbody]; simp [hi])
      (by rw [hbody]) (by rw [hbody]; exact hw) (by rw [hbody])
      (by push_cast at hk ⊢; omega) hN
    simp only [tqdmR, hs, Option.isSome_none, Bool.false_eq_true, ↓reduceIte]
    refine ⟨ih.1, ?_⟩
    rw [ih.2, hbody]
    simp [List.replicate_succ]



theorem dumpLoopOf_serving (n : Nat) (hn : (n : Int) ≤ 67108864) :
    (dumpLoopOf (64 * (n : Int)) 64 (servingPort 0 n)).stopped = none := by
  have e1 : Int.tdiv (64 * (n : Int)) 64 = (n : Int) :=
    Int.mul_tdiv_cancel_left _ (by decide)
  have e2 : ((n : Int) - 0).toNat = n := by omega
  unfold dumpLoopOf
  simp only [e1, e2]
  refine (tqdmR_serving (n : Int) n 0
    { index := 0, serialPort := servingPort 0 n, dumpFile := [], calls := [], chunks := [],
      stopped := none } rfl rfl rfl rfl (by omega) hn).1

theorem dumpLoop_serving : (dumpLoop 64 (servingPort 0 32768)).stopped = none := by
  have h := dumpLoopOf_serving 32768 (by decide)
  have e : (64 : Int) * ((32768 : Nat) : Int) = 2097152 := by decide
  rw [e] at h
  unfold dumpLoop
  exact h

theorem dumpLoopOf_serving_file (n : Nat) (hn : (n : Int) ≤ 67108864) :
    (dumpLoopOf (64 * (n : Int)) 64 (servingPort 0 n)).dumpFile =
      (List.replicate n sampleBytes).flatten := by
  have e1 : Int.tdiv (64 * (n : Int)) 64 = (n : Int) :=
    Int.mul_tdiv_cancel_left _ (by decide)
  have e2 : ((n : Int) - 0).toNat = n := by omega
  unfold dumpLoopOf
  simp only [e1, e2]
  have h := (tqdmR_serving (n : Int) n 0
    { index := 0, serialPort := servingPort 0 n, dumpFile := [], calls := [], chunks := [],
      stopped := none } rfl rfl rfl rfl (by omega) hn).2
  rw [h, List.nil_append]

theorem dumpLoop_serving_file :
    (dumpLoop 64 (servingPort 0 32768)).dumpFile = (List.replicate 32768 sampleBytes).flatten ∧
    (dumpLoop 64 (servingPort 0 32768)).dumpFile.length = 2097152 := by
  have h := dumpLoopOf_serving_file 32768 (by decide)
  have e : (64 : Int) * ((32768 : Nat) : Int) = 2097152 := by decide
  rw [e] at h
  unfold dumpLoop
  refine ⟨h, ?_⟩
  rw [h, List.length_flatten, List.map_replicate, List.sum_replicate]
  decide


/-! ## The claims -/

set_option maxRecDepth 100000

/-- C1 (round-trip decode).  Let `B` be a byte sequence whose length `L` is
an allowed chunk size, written in the console's format: every four bytes as
eight hex digits in reversed byte order, each group followed by a separator,
the payload being exactly `L*2 + L/4 + L/8` characters long.  Placed in a
response right after the first occurrence of the read command and two more
characters, it is decoded by `readNBytes` to exactly `B`. -/
theorem c1_round_trip (L offset : Int) (B : List Nat) (seps : List (List Nat)) (upper : Bool)
    (pre gap post : List Nat) (hBL : (B.length : Int) = L)
    (hB : ∀ b ∈ B, b < 256) (hl : B.length = 4 * seps.length)
    (hs : ∀ s ∈ seps, isSeparator s)
    (hlen : ((consoleEncode upper B seps).length : Int) = L * 2 + Int.tdiv L 4 + Int.tdiv L 8)
    (hgap : gap.length = 2)
    (hfirst : ∀ j, j < pre.length → ¬ writeString L offset <+:
      (pre ++ writeString L offset ++ gap ++ consoleEncode upper B seps ++ post).drop j) :
    decodeResponse L (writeString L offset)
      (pre ++ writeString L offset ++ gap ++ consoleEncode upper B seps ++ post) =
      Outcome.returned B := by
  have h0 : 0 ≤ L := by rw [← hBL]; omega
  exact decodeResponse_console L _ pre gap post upper B seps hl hB hs h0 hlen hgap hfirst

/-- C1 on the sample chunk of 64 bytes, in the console's format with one
space after every group and one more after every second group, behind four
stray characters. -/
theorem c1_round_trip_witness :
    ((64 : Int) ∈ allowedChunkSizes ∧ (sampleBytes.length : Int) = 64 ∧
      (∀ b ∈ sampleBytes, b < 256) ∧ sampleBytes.length = 4 * (consoleSeps 16).length ∧
      (∀ s ∈ consoleSeps 16, isSeparator s) ∧
      ((consoleEncode true sampleBytes (consoleSeps 16)).length : Int) =
        64 * 2 + Int.tdiv 64 4 + Int.tdiv 64 8 ∧
      (str "\r\n").length = 2 ∧
      ∀ j, j < (str "boot").length → ¬ writeString 64 0 <+:
        (str "boot" ++ writeString 64 0 ++ str "\r\n" ++
          consoleEncode true sampleBytes (consoleSeps 16) ++ terminator).drop j) ∧
    decodeResponse 64 (writeString 64 0)
      (str "boot" ++ writeString 64 0 ++ str "\r\n" ++
        consoleEncode true sampleBytes (consoleSeps 16) ++ terminator) =
      Outcome.returned sampleBytes := by
  have hL : (64 : Int) ∈ allowedChunkSizes := by decide
  have hBL : (sampleBytes.length : Int) = 64 := by decide
  have hB : ∀ b ∈ sampleBytes, b < 256 := by decide
  have hl : sampleBytes.length = 4 * (consoleSeps 16).length := by decide
  have hs : ∀ s ∈ consoleSeps 16, isSeparator s := by decide
  have hlen : ((consoleEncode true sampleBytes (consoleSeps 16)).length : Int) =
      64 * 2 + Int.tdiv 64 4 + Int.tdiv 64 8 := by decide
  have hgap : (str "\r\n").length = 2 := by decide
  have hfirst : ∀ j, j < (str "boot").length → ¬ writeString 64 0 <+:
      (str "boot" ++ writeString 64 0 ++ str "\r\n" ++
        consoleEncode true sampleBytes (consoleSeps 16) ++ terminator).drop j := by
    intro j hj
    rw [← isPrefixOf_iff]
    revert j
    decide
  exact ⟨⟨hL, hBL, hB, hl, hs, hlen, hgap, hfirst⟩,
    c1_round_trip 64 0 sampleBytes (consoleSeps 16) true (str "boot") (str "\r\n") terminator
      hBL hB hl hs hlen hgap hfirst⟩

/-- C9 (read-command format).  For an offset in `[0, 2^32)` and a positive
byte count the command is `spi rd 0x`, then exactly eight upper-case hex
digits whose value is the offset, one space, and the byte count in decimal
without a leading zero.  What `readNBytes` writes to the port is that string
followed by `;`, and the delimiter error after the receive loop is raised
exactly when that same string is not a substring of the accumulated text. -/
theorem c9_read_command_format (byteCount offset : Int) (hlo : 0 ≤ offset)
    (hhi : offset < 2 ^ 32) (hpos : 0 < byteCount) :
    ∃ hx dc : List Nat,
      writeString byteCount offset = str "spi rd 0x" ++ hx ++ str " " ++ dc ∧
      hx.length = 8 ∧ (∀ c ∈ hx, isUpperHexChar c) ∧ (textValue 16 hx : Int) = offset ∧
      dc ≠ [] ∧ (∀ c ∈ dc, isDecChar c) ∧ dc.head? ≠ some 48 ∧
      (textValue 10 dc : Int) = byteCount ∧
      ∀ p : Port, p.writeErr = false →
        (readNBytes p byteCount offset).2.written =
            p.written ++ [str "spi rd 0x" ++ hx ++ str " " ++ dc ++ str ";"] ∧
        ∀ chunk rest,
          recvLoop p.reads (List.replicate (byteCount * 2 + 63).toNat 0) [] =
            RecvResult.exited chunk rest →
          ((readNBytes p byteCount offset).1 = Outcome.fatalDelimiter ↔
            ¬ (str "spi rd 0x" ++ hx ++ str " " ++ dc) <:+: chunk) := by
  obtain ⟨n, rfl⟩ := Int.eq_ofNat_of_zero_le hlo
  obtain ⟨m, rfl⟩ := Int.eq_ofNat_of_zero_le (le_of_lt hpos)
  have hn : n < 2 ^ 32 := by exact_mod_cast hhi
  have hm : 0 < m := by exact_mod_cast hpos
  obtain ⟨hx, e1, e2, e3, e4⟩ := Sprintf0x08X_nonneg n hn
  obtain ⟨d1, d2, d3, d4⟩ := Itoa_pos m hm
  have hws : writeString (m : Int) (n : Int) = str "spi rd 0x" ++ hx ++ str " " ++ Itoa (m : Int) := by
    unfold writeString
    rw [e1]
    simp [str]
  refine ⟨hx, Itoa (m : Int), hws, e2, e3, by exact_mod_cast e4, d1, d2, d3,
    by exact_mod_cast d4, ?_⟩
  intro p hw
  rw [← hws]
  refine ⟨readNBytes_written p _ _ hw, ?_⟩
  intro chunk rest hl
  rw [readNBytes_of_exited p _ _ chunk rest hw (by omega) hl]
  exact decodeResponse_fatalDelimiter_iff _ _ _

/-- C9 at offset `0x1FFC00` and byte count 1024: the command is
`spi rd 0x001FFC00 1024`. -/
theorem c9_read_command_format_witness :
    (0 : Int) ≤ 2096128 ∧ (2096128 : Int) < 2 ^ 32 ∧ (0 : Int) < 1024 ∧
    ∃ hx dc : List Nat,
      writeString 1024 2096128 = str "spi rd 0x" ++ hx ++ str " " ++ dc ∧
      hx.length = 8 ∧ (∀ c ∈ hx, isUpperHexChar c) ∧ (textValue 16 hx : Int) = 2096128 ∧
      dc ≠ [] ∧ (∀ c ∈ dc, isDecChar c) ∧ dc.head? ≠ some 48 ∧
      (textValue 10 dc : Int) = 1024 ∧
      ∀ p : Port, p.writeErr = false →
        (readNBytes p 1024 2096128).2.written =
            p.written ++ [str "spi rd 0x" ++ hx ++ str " " ++ dc ++ str ";"] ∧
        ∀ chunk rest,
          recvLoop p.reads (List.replicate ((1024 : Int) * 2 + 63).toNat 0) [] =
            RecvResult.exited chunk rest →
          ((readNBytes p 1024 2096128).1 = Outcome.fatalDelimiter ↔
            ¬ (str "spi rd 0x" ++ hx ++ str " " ++ dc) <:+: chunk) :=
  ⟨by decide, by decide, by decide, c9_read_command_format 1024 2096128 (by decide) (by decide) (by decide)⟩

/-- C4 (missing echo).  After the receive loop, the outcome is the fatal
delimiter error exactly when the read command is not a substring of the
accumulated text; in that case no bytes are returned.  For the whole call:
`readNBytes` ends with the delimiter error exactly when its receive loop
exits with an accumulated text that lacks the command. -/
theorem c4_missing_echo_is_fatal (byteCount offset : Int) :
    (∀ chunk : List Nat,
      (decodeResponse byteCount (writeString byteCount offset) chunk = Outcome.fatalDelimiter ↔
        ¬ writeString byteCount offset <:+: chunk) ∧
      (¬ writeString byteCount offset <:+: chunk →
        ∀ bs, decodeResponse byteCount (writeString byteCount offset) chunk ≠
          Outcome.returned bs)) ∧
    (∀ p : Port,
      (readNBytes p byteCount offset).1 = Outcome.fatalDelimiter ↔
        ∃ chunk rest, p.writeErr = false ∧ 0 ≤ byteCount * 2 + 63 ∧
          recvLoop p.reads (List.replicate (byteCount * 2 + 63).toNat 0) [] =
            RecvResult.exited chunk rest ∧
          ¬ writeString byteCount offset <:+: chunk) := by
  refine ⟨fun chunk => ⟨decodeResponse_fatalDelimiter_iff _ _ _, ?_⟩,
    fun p => readNBytes_fatalDelimiter_iff p byteCount offset⟩
  intro hn bs hb
  have := (decodeResponse_fatalDelimiter_iff byteCount _ chunk).2 hn
  rw [this] at hb
  cases hb

/-- C4 on a response to another command: the text of the sample response
does not contain `spi rd 0x00000040 64`, and the call ends with the delimiter
error. -/
theorem c4_missing_echo_is_fatal_witness :
    ¬ writeString 64 64 <:+: sampleResponse ∧
    decodeResponse 64 (writeString 64 64) sampleResponse = Outcome.fatalDelimiter ∧
    ∀ bs, decodeResponse 64 (writeString 64 64) sampleResponse ≠ Outcome.returned bs := by
  have hn : ¬ writeString 64 64 <:+: sampleResponse := by
    rw [← Contains_iff]
    decide
  have h := (c4_missing_echo_is_fatal 64 64).1 sampleResponse
  exact ⟨hn, h.1.2 hn, h.2 hn⟩

/-- C5, as stated, fails: on a response to `spi rd 0x00000000 64` whose
payload window holds one group and blanks, `readNBytes` returns normally
with 4 bytes, not 64. -/
theorem c5_counterexample :
    (readNBytes (portOf shortResponse) 64 0).1 = Outcome.returned [1, 2, 3, 4] ∧
    (([1, 2, 3, 4] : List Nat).length : Int) ≠ 64 := by
  decide

/-- C5, amended.  Whenever the decoding returns normally, the slice returned
has exactly four bytes for every white-space separated field of the tidied
payload window, so it has `byteCount` bytes exactly when the window holds
`byteCount / 4` fields; the length is not compared with `byteCount`.  The
fatal decode error is raised only when the reordered digits contain a
character that is no hex digit. -/
theorem c5_returned_length (byteCount : Int) (ws chunk : List Nat) :
    (∀ bs, decodeResponse byteCount ws chunk = Outcome.returned bs →
      ∃ window,
        goSlice chunk (Index chunk ws + (ws.length : Int) + 2)
          (Index chunk ws + (ws.length : Int) + 2 + chunkLength byteCount) = some window ∧
        bs.length = 4 * (Fields (normalize window)).length ∧
        (((bs.length : Int) = byteCount) ↔
          (4 * ((Fields (normalize window)).length : Int) = byteCount))) ∧
    (decodeResponse byteCount ws chunk = Outcome.fatalDecode →
      ∃ window enc,
        goSlice chunk (Index chunk ws + (ws.length : Int) + 2)
          (Index chunk ws + (ws.length : Int) + 2 + chunkLength byteCount) = some window ∧
        reverseLoop (Fields (normalize window)) [] = some enc ∧
        ∃ c ∈ enc, fromHexChar c = none) := by
  constructor
  · intro bs h
    unfold decodeResponse at h
    simp only at h
    split at h
    · cases h
    · split at h
      · cases h
      · rename_i window hw
        have hl := decodeWindow_returned window bs h
        refine ⟨window, hw, hl, ?_⟩
        rw [hl]
        push_cast
        rfl
  · intro h
    unfold decodeResponse at h
    simp only at h
    split at h
    · cases h
    · split at h
      · cases h
      · rename_i window hw
        rw [decodeWindow_eq] at h
        cases hr : reverseLoop (Fields (normalize window)) [] with
        | none => simp only [hr] at h; cases h
        | some enc =>
          simp only [hr] at h
          cases hd : DecodeString enc with
          | some d => simp only [hd] at h; cases h
          | none =>
            have hlen := (reverseLoop_some_length _ _ _ hr).1
            refine ⟨window, enc, hw, hr, ?_⟩
            exact DecodeString_none enc.length enc le_rfl (by simp at hlen; omega) hd

/-- C5 amended, on the response with one group (four bytes returned) and on
the response with a garbled group (decode error). -/
theorem c5_returned_length_witness :
    decodeResponse 64 (writeString 64 0) shortResponse = Outcome.returned [1, 2, 3, 4] ∧
    decodeResponse 64 (writeString 64 0) garbledResponse = Outcome.fatalDecode ∧
    (∃ window,
        goSlice shortResponse (Index shortResponse (writeString 64 0) +
            ((writeString 64 0).length : Int) + 2)
          (Index shortResponse (writeString 64 0) + ((writeString 64 0).length : Int) + 2 +
            chunkLength 64) = some window ∧
        ([1, 2, 3, 4] : List Nat).length = 4 * (Fields (normalize window)).length ∧
        (((([1, 2, 3, 4] : List Nat).length : Int) = 64) ↔
          (4 * ((Fields (normalize window)).length : Int) = 64))) ∧
    (∃ window enc,
        goSlice garbledResponse (Index garbledResponse (writeString 64 0) +
            ((writeString 64 0).length : Int) + 2)
          (Index garbledResponse (writeString 64 0) + ((writeString 64 0).length : Int) + 2 +
            chunkLength 64) = some window ∧
        reverseLoop (Fields (normalize window)) [] = some enc ∧
        ∃ c ∈ enc, fromHexChar c = none) := by
  have h1 : decodeResponse 64 (writeString 64 0) shortResponse = Outcome.returned [1, 2, 3, 4] := by
    decide
  have h2 : decodeResponse 64 (writeString 64 0) garbledResponse = Outcome.fatalDecode := by
    decide
  exact ⟨h1, h2, (c5_returned_length 64 (writeString 64 0) shortResponse).1 _ h1,
    (c5_returned_length 64 (writeString 64 0) garbledResponse).2 h2⟩

/-- C6 (echo-offset determinism).  When the first occurrence of the command
`c` in the response is at position `P`, the outcome is the decoding of the
slice from `P + len(c) + 2` to `P + len(c) + 2 + chunkLength`; for a byte
count that is not negative and a response long enough this window is exactly
the `byteCount*2 + byteCount/4 + byteCount/8` characters that start at index
`P + len(c) + 2`; and the outcome is the same as on the response without
the `P` characters that precede the echo. -/
theorem c6_echo_offset (byteCount : Int) (c chunk : List Nat) (P : Nat)
    (hP : P ≤ chunk.length) (hocc : c <+: chunk.drop P)
    (hfirst : ∀ j, j < P → ¬ c <+: chunk.drop j) :
    decodeResponse byteCount c chunk =
      (match goSlice chunk ((P : Int) + (c.length : Int) + 2)
          ((P : Int) + (c.length : Int) + 2 + chunkLength byteCount) with
      | none => Outcome.panicSlice
      | some w => decodeWindow w) ∧
    (0 ≤ byteCount →
      (P : Int) + (c.length : Int) + 2 + chunkLength byteCount ≤ (chunk.length : Int) →
      goSlice chunk ((P : Int) + (c.length : Int) + 2)
          ((P : Int) + (c.length : Int) + 2 + chunkLength byteCount) =
        some ((chunk.drop (P + c.length + 2)).take (chunkLength byteCount).toNat) ∧
      (((chunk.drop (P + c.length + 2)).take (chunkLength byteCount).toNat).length : Int) =
        byteCount * 2 + Int.tdiv byteCount 4 + Int.tdiv byteCount 8 ∧
      decodeResponse byteCount c chunk =
        decodeWindow ((chunk.drop (P + c.length + 2)).take (chunkLength byteCount).toNat)) ∧
    decodeResponse byteCount c chunk = decodeResponse byteCount c (chunk.drop P) := by
  have h1 := decodeResponse_of_first byteCount c chunk P hP hocc hfirst
  refine ⟨h1, ?_, ?_⟩
  · intro hb hlen
    have hw := goSlice_window byteCount chunk (P + c.length + 2) hb (by push_cast; omega)
    have hw2 : goSlice chunk ((P : Int) + (c.length : Int) + 2)
        ((P : Int) + (c.length : Int) + 2 + chunkLength byteCount) =
        some ((chunk.drop (P + c.length + 2)).take (chunkLength byteCount).toNat) := by
      rw [← hw]; push_cast; rfl
    refine ⟨hw2, ?_, ?_⟩
    · have := goSlice_length _ _ _ _ hw2
      rw [this]
      unfold chunkLength
      ring
    · rw [h1, hw2]
  · have h0 : decodeResponse byteCount c (chunk.drop P) =
        (match goSlice (chunk.drop P) (((0 : Nat) : Int) + (c.length : Int) + 2)
            (((0 : Nat) : Int) + (c.length : Int) + 2 + chunkLength byteCount) with
        | none => Outcome.panicSlice
        | some w => decodeWindow w) :=
      decodeResponse_of_first byteCount c (chunk.drop P) 0 (Nat.zero_le _) (by simpa using hocc)
        (fun j hj => absurd hj (Nat.not_lt_zero j))
    rw [h1, h0, goSlice_drop chunk P _ _ hP (by omega)]
    congr 2 <;> push_cast <;> ring

/-- C6 on the sample response behind four stray characters: the echo is
found at position 4 and the 152 characters from index 26 are decoded. -/
theorem c6_echo_offset_witness :
    (4 ≤ (str "boot" ++ sampleResponse).length ∧
      writeString 64 0 <+: (str "boot" ++ sampleResponse).drop 4 ∧
      ∀ j, j < 4 → ¬ writeString 64 0 <+: (str "boot" ++ sampleResponse).drop j) ∧
    ((0 : Int) ≤ 64 ∧
      ((4 : Nat) : Int) + ((writeString 64 0).length : Int) + 2 + chunkLength 64 ≤
        ((str "boot" ++ sampleResponse).length : Int)) ∧
    decodeResponse 64 (writeString 64 0) (str "boot" ++ sampleResponse) =
      decodeWindow (((str "boot" ++ sampleResponse).drop (4 + (writeString 64 0).length + 2)).take
        (chunkLength 64).toNat) ∧
    decodeResponse 64 (writeString 64 0) (str "boot" ++ sampleResponse) =
      decodeResponse 64 (writeString 64 0) ((str "boot" ++ sampleResponse).drop 4) ∧
    decodeResponse 64 (writeString 64 0) (str "boot" ++ sampleResponse) =
      Outcome.returned sampleBytes := by
  have hP : 4 ≤ (str "boot" ++ sampleResponse).length := by decide
  have hocc : writeString 64 0 <+: (str "boot" ++ sampleResponse).drop 4 := by
    rw [← isPrefixOf_iff]; decide
  have hfirst : ∀ j, j < 4 → ¬ writeString 64 0 <+: (str "boot" ++ sampleResponse).drop j := by
    intro j hj
    rw [← isPrefixOf_iff]
    revert j
    decide
  have hb : (0 : Int) ≤ 64 := by decide
  have hlen : ((4 : Nat) : Int) + ((writeString 64 0).length : Int) + 2 + chunkLength 64 ≤
      ((str "boot" ++ sampleResponse).length : Int) := by decide
  have h := c6_echo_offset 64 (writeString 64 0) (str "boot" ++ sampleResponse) 4 hP hocc hfirst
  exact ⟨⟨hP, hocc, hfirst⟩, ⟨hb, hlen⟩, (h.2.1 hb hlen).2.2, h.2.2, by decide⟩

/-- C7 (group reversal).  When every field of the tidied window is a group
of eight hex digits `h0 .. h7`, the bytes returned are, group after group in
the order of the fields, the bytes written `h6h7`, `h4h5`, `h2h3`, `h0h1`. -/
theorem c7_group_reversal (window : List Nat)
    (h : ∀ v ∈ Fields (normalize window), v.length = 8 ∧ ∀ c ∈ v, isHexChar c) :
    decodeWindow window = Outcome.returned ((Fields (normalize window)).flatMap groupBytes) := by
  rw [decodeWindow_eq, reverseLoop_eq _ _ (fun v hv => by rw [(h v hv).1])]
  simp only [List.nil_append]
  rw [DecodeString_groups _ h]

/-- C7 on the group `04030201`, which decodes to the bytes 1, 2, 3, 4, and
on two groups in a row. -/
theorem c7_group_reversal_witness :
    (∀ v ∈ Fields (normalize (str "04030201 0807060a  ")),
      v.length = 8 ∧ ∀ c ∈ v, isHexChar c) ∧
    groupBytes (str "04030201") = [1, 2, 3, 4] ∧
    decodeWindow (str "04030201") = Outcome.returned [1, 2, 3, 4] ∧
    decodeWindow (str "04030201 0807060a  ") = Outcome.returned [1, 2, 3, 4, 10, 6, 7, 8] := by
  have h : ∀ v ∈ Fields (normalize (str "04030201 0807060a  ")),
      v.length = 8 ∧ ∀ c ∈ v, isHexChar c := by decide
  refine ⟨h, by decide, by decide, ?_⟩
  rw [c7_group_reversal _ h]
  decide

/-- C10 (decoder bounds).  When the echo is first found at `P`, the byte
count is not negative, the response has at least
`P + len(c) + 2 + chunkLength` characters and every field of the tidied
window has at least eight characters, the window slice and the four slices
of every field are in range, the string handed to the hex decoder has eight
characters per field, the call does not panic, and a result has four bytes
per field. -/
theorem c10_decoder_bounds (byteCount : Int) (c chunk : List Nat) (P : Nat)
    (hP : P ≤ chunk.length) (hocc : c <+: chunk.drop P)
    (hfirst : ∀ j, j < P → ¬ c <+: chunk.drop j) (hb : 0 ≤ byteCount)
    (hlen : (P : Int) + (c.length : Int) + 2 + chunkLength byteCount ≤ (chunk.length : Int))
    (htok : ∀ v ∈ Fields (normalize
      ((chunk.drop (P + c.length + 2)).take (chunkLength byteCount).toNat)), 8 ≤ v.length) :
    ∃ window enc,
      goSlice chunk (Index chunk c + (c.length : Int) + 2)
        (Index chunk c + (c.length : Int) + 2 + chunkLength byteCount) = some window ∧
      window = (chunk.drop (P + c.length + 2)).take (chunkLength byteCount).toNat ∧
      (∀ v ∈ Fields (normalize window),
        (goSlice v 6 8).isSome = true ∧ (goSlice v 4 6).isSome = true ∧
        (goSlice v 2 4).isSome = true ∧ (goSlice v 0 2).isSome = true) ∧
      reverseLoop (Fields (normalize window)) [] = some enc ∧
      enc.length = 8 * (Fields (normalize window)).length ∧
      decodeResponse byteCount c chunk ≠ Outcome.panicSlice ∧
      ∀ bs, decodeResponse byteCount c chunk = Outcome.returned bs →
        bs.length = 4 * (Fields (normalize window)).length := by
  have hw := goSlice_window byteCount chunk (P + c.length + 2) hb (by push_cast; omega)
  have hw2 : goSlice chunk ((P : Int) + (c.length : Int) + 2)
      ((P : Int) + (c.length : Int) + 2 + chunkLength byteCount) =
      some ((chunk.drop (P + c.length + 2)).take (chunkLength byteCount).toNat) := by
    rw [← hw]; push_cast; rfl
  obtain ⟨enc, henc⟩ := reverseLoop_isSome _ [] htok
  have hd := decodeResponse_of_first byteCount c chunk P hP hocc hfirst
  rw [hw2] at hd
  simp only at hd
  refine ⟨_, enc, ?_, rfl, ?_, henc, ?_, ?_, ?_⟩
  · rw [Index_eq_of_first chunk c P hP hocc hfirst]; exact hw2
  · intro v hv
    have h8 := htok v hv
    simp only [goSlice_isSome_iff]
    omega
  · have := (reverseLoop_some_length _ _ _ henc).1
    simpa using this
  · rw [hd, decodeWindow_eq]
    simp only [henc]
    split <;> simp
  · intro bs hbs
    rw [hd] at hbs
    exact decodeWindow_returned _ bs hbs

/-- C10 on the sample response behind four stray characters. -/
theorem c10_decoder_bounds_witness :
    (4 ≤ (str "boot" ++ sampleResponse).length ∧
      writeString 64 0 <+: (str "boot" ++ sampleResponse).drop 4 ∧
      (∀ j, j < 4 → ¬ writeString 64 0 <+: (str "boot" ++ sampleResponse).drop j) ∧
      (0 : Int) ≤ 64 ∧
      ((4 : Nat) : Int) + ((writeString 64 0).length : Int) + 2 + chunkLength 64 ≤
        ((str "boot" ++ sampleResponse).length : Int) ∧
      ∀ v ∈ Fields (normalize (((str "boot" ++ sampleResponse).drop
        (4 + (writeString 64 0).length + 2)).take (chunkLength 64).toNat)), 8 ≤ v.length) ∧
    ∃ window enc,
      goSlice (str "boot" ++ sampleResponse)
        (Index (str "boot" ++ sampleResponse) (writeString 64 0) +
          ((writeString 64 0).length : Int) + 2)
        (Index (str "boot" ++ sampleResponse) (writeString 64 0) +
          ((writeString 64 0).length : Int) + 2 + chunkLength 64) = some window ∧
      window = ((str "boot" ++ sampleResponse).drop (4 + (writeString 64 0).length + 2)).take
        (chunkLength 64).toNat ∧
      (∀ v ∈ Fields (normalize window),
        (goSlice v 6 8).isSome = true ∧ (goSlice v 4 6).isSome = true ∧
        (goSlice v 2 4).isSome = true ∧ (goSlice v 0 2).isSome = true) ∧
      reverseLoop (Fields (normalize window)) [] = some enc ∧
      enc.length = 8 * (Fields (normalize window)).length ∧
      decodeResponse 64 (writeString 64 0) (str "boot" ++ sampleResponse) ≠ Outcome.panicSlice ∧
      ∀ bs, decodeResponse 64 (writeString 64 0) (str "boot" ++ sampleResponse) =
          Outcome.returned bs →
        bs.length = 4 * (Fields (normalize window)).length := by
  have hP : 4 ≤ (str "boot" ++ sampleResponse).length := by decide
  have hocc : writeString 64 0 <+: (str "boot" ++ sampleResponse).drop 4 := by
    rw [← isPrefixOf_iff]; decide
  have hfirst : ∀ j, j < 4 → ¬ writeString 64 0 <+: (str "boot" ++ sampleResponse).drop j := by
    intro j hj
    rw [← isPrefixOf_iff]
    revert j
    decide
  have hb : (0 : Int) ≤ 64 := by decide
  have hlen : ((4 : Nat) : Int) + ((writeString 64 0).length : Int) + 2 + chunkLength 64 ≤
      ((str "boot" ++ sampleResponse).length : Int) := by decide
  have htok : ∀ v ∈ Fields (normalize (((str "boot" ++ sampleResponse).drop
      (4 + (writeString 64 0).length + 2)).take (chunkLength 64).toNat)), 8 ≤ v.length := by
    decide
  exact ⟨⟨hP, hocc, hfirst, hb, hlen, htok⟩,
    c10_decoder_bounds 64 (writeString 64 0) (str "boot" ++ sampleResponse) 4 hP hocc hfirst hb
      hlen htok⟩

/-- C2, evaluated on two reads: `ab CR LF CR LF Z`, then `CR LF`.  The second
read overwrites the first two bytes of the buffer, which then holds three
CRLF pairs, and the loop exits; the accumulated text `ab CR LF CR LF Z CR LF`
does not contain the terminator. -/
theorem c2_loop_exits_without_terminator :
    recvLoop staleReads (List.replicate ((64 : Int) * 2 + 63).toNat 0) [] =
      RecvResult.exited (str "ab\r\n\r\nZ\r\n") [] ∧
    Contains (str "ab\r\n\r\nZ\r\n") terminator = false ∧
    ¬ terminator <:+: str "ab\r\n\r\nZ\r\n" := by
  have h : Contains (str "ab\r\n\r\nZ\r\n") terminator = false := by decide
  refine ⟨by decide, h, ?_⟩
  rw [← Contains_iff, h]
  simp

/-- C3, evaluated on the sample response, which ends with the terminator:
delivered by a single read it is decoded to the sample chunk; delivered one
byte per read, or as a read of 178 bytes followed by one of 2 bytes, the
receive loop never sees the terminator in its buffer and the call blocks in
`Read` for ever. -/
theorem c3_fragmented_delivery_blocks :
    terminator <:+ sampleResponse ∧
    (readNBytes (portOf sampleResponse) 64 0).1 = Outcome.returned sampleBytes ∧
    (readNBytes (bytewisePort sampleResponse) 64 0).1 = Outcome.hang ∧
    (readNBytes (splitPort sampleResponse 178) 64 0).1 = Outcome.hang := by
  refine ⟨⟨writeString 64 0 ++ str "\r\n" ++ samplePayload, rfl⟩, by decide,
    readNBytes_bytewise sampleResponse 64 0 (by decide), by decide⟩

/-- C8 (the dump loop covers the chip).  For an allowed chunk size `c` and a
run of the dump loop that completes (no read cycle ends the process, panics
or blocks), exactly `2097152 / c` reads are made, the `i`-th (from 0) with
byte count `c` at offset `c * i`: read `i` is the call of `readNBytes` on the
port left by read `i - 1`, the first on the port given, and the bytes written
to the port are the commands of these reads, each followed by `;`, in this
order.  The offsets increase strictly, `c * (2097152 / c) = 2097152`, every
address below 2097152 lies in the range `[c*i, c*i + c)` of exactly one read,
and the bytes written to the file are the chunks these calls of `readNBytes`
returned, concatenated in that order. -/
theorem c8_dump_covers_chip (c : Int) (port : Port) (hc : c ∈ allowedChunkSizes)
    (hrun : (dumpLoop c port).stopped = none) :
    (dumpLoop c port).calls = expectedCalls c (Int.tdiv 2097152 c).toNat ∧
    (dumpLoop c port).chunks.length = (Int.tdiv 2097152 c).toNat ∧
    (dumpLoop c port).dumpFile = (dumpLoop c port).chunks.flatten ∧
    c * Int.tdiv 2097152 c = 2097152 ∧
    (∀ i j : Nat, i < j → c * (i : Int) < c * (j : Int)) ∧
    (∀ a : Int, 0 ≤ a → a < 2097152 →
      ∃ i : Nat, (i < (Int.tdiv 2097152 c).toNat ∧ c * (i : Int) ≤ a ∧ a < c * (i : Int) + c) ∧
        ∀ j : Nat, (c * (j : Int) ≤ a ∧ a < c * (j : Int) + c) → j = i) ∧
    (∃ ports : Nat → Port,
      ports 0 = port ∧
      ports (Int.tdiv 2097152 c).toNat = (dumpLoop c port).serialPort ∧
      ∀ i : Nat, i < (Int.tdiv 2097152 c).toNat →
        ∃ ch, (dumpLoop c port).chunks[i]? = some ch ∧
          readNBytes (ports i) c (c * (i : Int)) = (Outcome.returned ch, ports (i + 1))) ∧
    (dumpLoop c port).serialPort.written =
      port.written ++ sentCommands c (Int.tdiv 2097152 c).toNat := by
  have hinit : DumpInv c
      { index := 0, serialPort := port, dumpFile := [], calls := [], chunks := [],
        stopped := none } :=
    ⟨rfl, rfl, rfl, fun _ => rfl, fun h => absurd rfl h⟩
  have hinitc : DumpChain c port
      { index := 0, serialPort := port, dumpFile := [], calls := [], chunks := [],
        stopped := none } (fun _ => port) :=
    ⟨rfl, fun _ => rfl, fun _ => by simp [sentCommands], fun i ch h => by simp at h⟩
  have hpos : 0 ≤ Int.tdiv 2097152 c := by
    simp only [allowedChunkSizes, List.mem_cons, List.mem_singleton, List.not_mem_nil,
      or_false] at hc
    rcases hc with rfl | rfl | rfl | rfl | rfl <;> decide
  have hinv : DumpInv c (dumpLoop c port) :=
    tqdmR_inv c (Int.tdiv 2097152 c) (Int.tdiv 2097152 c - 0).toNat _ hinit
  obtain ⟨ports, hchain⟩ : ∃ ports : Nat → Port, DumpChain c port (dumpLoop c port) ports :=
    tqdmR_chain c (Int.tdiv 2097152 c) port (Int.tdiv 2097152 c - 0).toNat _ _ hinit hinitc
  have hcount : ((dumpLoop c port).chunks.length : Int) = Int.tdiv 2097152 c :=
    tqdmR_count c (Int.tdiv 2097152 c) (Int.tdiv 2097152 c - 0).toNat _ hinit rfl
    (by simp only [List.length_nil]; omega) hrun
  have hchunks : (dumpLoop c port).chunks.length = (Int.tdiv 2097152 c).toNat := by
    omega
  have hcalls : (dumpLoop c port).calls.length = (Int.tdiv 2097152 c).toNat := by
    rw [← hchunks]
    exact hinv.running hrun
  refine ⟨?_, hchunks, hinv.file_eq, ?_, ?_, ?_, ?_, ?_⟩
  · have := hinv.calls_eq
    rw [hcalls] at this
    exact this
  · simp only [allowedChunkSizes, List.mem_cons, List.mem_singleton, List.not_mem_nil,
      or_false] at hc
    rcases hc with rfl | rfl | rfl | rfl | rfl <;> decide
  · intro i j hij
    simp only [allowedChunkSizes, List.mem_cons, List.mem_singleton, List.not_mem_nil,
      or_false] at hc
    rcases hc with rfl | rfl | rfl | rfl | rfl <;> omega
  · intro a h0 h1
    simp only [allowedChunkSizes, List.mem_cons, List.mem_singleton, List.not_mem_nil,
      or_false] at hc
    rcases hc with rfl | rfl | rfl | rfl | rfl
    · have e : Int.tdiv 2097152 64 = 32768 := by decide
      rw [e]
      exact ⟨(a / 64).toNat, by omega, fun j hj => by omega⟩
    · have e : Int.tdiv 2097152 128 = 16384 := by decide
      rw [e]
      exact ⟨(a / 128).toNat, by omega, fun j hj => by omega⟩
    · have e : Int.tdiv 2097152 256 = 8192 := by decide
      rw [e]
      exact ⟨(a / 256).toNat, by omega, fun j hj => by omega⟩
    · have e : Int.tdiv 2097152 512 = 4096 := by decide
      rw [e]
      exact ⟨(a / 512).toNat, by omega, fun j hj => by omega⟩
    · have e : Int.tdiv 2097152 1024 = 2048 := by decide
      rw [e]
      exact ⟨(a / 1024).toNat, by omega, fun j hj => by omega⟩
  · refine ⟨ports, hchain.start, ?_, ?_⟩
    · rw [← hchunks]
      exact hchain.current hrun
    · intro i hi
      have hlt : i < (dumpLoop c port).chunks.length := by omega
      exact ⟨(dumpLoop c port).chunks[i], List.getElem?_eq_getElem hlt,
        hchain.reads i _ (List.getElem?_eq_getElem hlt)⟩
  · rw [← hchunks]
    exact hchain.sent hrun

/-- C8 on a complete run with chunk size 64: a port that answers each of the
32768 reads with a well-formed response carrying the sample chunk; the file
ends up with the 2097152 bytes of the 32768 chunks. -/
theorem c8_dump_covers_chip_witness :
    ((64 : Int) ∈ allowedChunkSizes ∧ (dumpLoop 64 (servingPort 0 32768)).stopped = none) ∧
    (dumpLoop 64 (servingPort 0 32768)).calls = expectedCalls 64 (Int.tdiv 2097152 64).toNat ∧
    (dumpLoop 64 (servingPort 0 32768)).chunks.length = (Int.tdiv 2097152 64).toNat ∧
    (dumpLoop 64 (servingPort 0 32768)).dumpFile =
      (dumpLoop 64 (servingPort 0 32768)).chunks.flatten ∧
    (64 : Int) * Int.tdiv 2097152 64 = 2097152 ∧
    (∀ i j : Nat, i < j → (64 : Int) * (i : Int) < 64 * (j : Int)) ∧
    (∀ a : Int, 0 ≤ a → a < 2097152 →
      ∃ i : Nat, (i < (Int.tdiv 2097152 64).toNat ∧ (64 : Int) * (i : Int) ≤ a ∧
          a < 64 * (i : Int) + 64) ∧
        ∀ j : Nat, ((64 : Int) * (j : Int) ≤ a ∧ a < 64 * (j : Int) + 64) → j = i) ∧
    (∃ ports : Nat → Port,
      ports 0 = servingPort 0 32768 ∧
      ports (Int.tdiv 2097152 64).toNat = (dumpLoop 64 (servingPort 0 32768)).serialPort ∧
      ∀ i : Nat, i < (Int.tdiv 2097152 64).toNat →
        ∃ ch, (dumpLoop 64 (servingPort 0 32768)).chunks[i]? = some ch ∧
          readNBytes (ports i) 64 (64 * (i : Int)) = (Outcome.returned ch, ports (i + 1))) ∧
    ((dumpLoop 64 (servingPort 0 32768)).serialPort.written =
        (servingPort 0 32768).written ++ sentCommands 64 (Int.tdiv 2097152 64).toNat ∧
      (dumpLoop 64 (servingPort 0 32768)).dumpFile =
        (List.replicate 32768 sampleBytes).flatten ∧
      (dumpLoop 64 (servingPort 0 32768)).dumpFile.length = 2097152) := by
  have h := c8_dump_covers_chip 64 (servingPort 0 32768) (by decide) dumpLoop_serving
  exact ⟨⟨by decide, dumpLoop_serving⟩, h.1, h.2.1, h.2.2.1, h.2.2.2.1, h.2.2.2.2.1,
    h.2.2.2.2.2.1, h.2.2.2.2.2.2.1, h.2.2.2.2.2.2.2, dumpLoop_serving_file⟩

end Dumper
